import Mathlib

/-!
# Verification of the pytanis program-management pipeline

This file gives a shallow embedding, in Lean 4, of the algorithmic core of the
pytanis conference-management repository and settles a list of claims about it:

* the track-name splitting used by the scheduling notebook
  (`notebooks/pyconde-pydata-darmstadt-2025/40_scheduling_v1.ipynb`);
* the mixed-integer schedule model built there (constraints and objective);
* the popularity/capacity normalisation feeding the talk-room fit parameter;
* the order-(in)dependence of the set-driven constructions in that notebook;
* the greedy reviewer-assignment engine of
  `notebooks/pyconde-pydata-berlin-2023/30_selection_v1.ipynb`.

Python/pandas data structures are modelled with plain lists and functions:
dataframes become lists of structures, `idxmin` becomes a first-minimum search
over index lists, Python `set` iteration order becomes an explicit list
parameter, and the engine's `while` loop becomes a well-founded recursion over
an explicitly decreasing measure.  Rational numbers stand for the float
arithmetic of the notebooks; all modelled quantities (vote counts, capacities,
minutes, counters) are exact integers or exact fractions, so no rounding
behaviour is lost in the claims settled here.
-/

/-! ## Track-name splitting (scheduling notebook)

The notebook derives the main track and the sub track of a talk by

```python
talks_df.insert(2, 'Main track', talks_df[Col.track].map(lambda x: x.split(":")[0] ...))
talks_df[Col.track] = talks_df[Col.track].map(lambda x: x.split(":")[-1] ...).map(lambda x: re.sub('[\W_]+', '', x))
```

`splitCh` embeds Python's `str.split(sep)` on character lists: it always returns
at least one (possibly empty) group, one group per separator occurrence plus one.
-/

def splitCh (sep : Char) : List Char → List (List Char)
  | [] => [[]]
  | c :: cs =>
    if c = sep then [] :: splitCh sep cs
    else
      match splitCh sep cs with
      | [] => [[c]]
      | g :: gs => (c :: g) :: gs

theorem splitCh_ne_nil (sep : Char) (l : List Char) : splitCh sep l ≠ [] := by
  cases l with
  | nil => simp [splitCh]
  | cons c cs =>
    by_cases h : c = sep <;> simp only [splitCh, h, if_true, if_false, reduceIte]
    · simp
    · cases hs : splitCh sep cs <;> simp [h]

/-- `x.split(":")[0]`: the group before the first separator. -/
theorem splitCh_headD (sep : Char) (l : List Char) :
    (splitCh sep l).headD [] = l.takeWhile (fun c => !(c == sep)) := by
  induction l with
  | nil => rfl
  | cons c cs ih =>
    by_cases h : c = sep
    · subst h
      have hb : (!(c == c)) = false := by simp
      simp [splitCh, List.takeWhile_cons, hb]
    · have hb : (!(c == sep)) = true := by simp [h]
      simp only [splitCh, h, reduceIte]
      cases hs : splitCh sep cs with
      | nil => exact absurd hs (splitCh_ne_nil sep cs)
      | cons g gs =>
        rw [hs] at ih
        simp only [List.headD] at ih
        simp [List.takeWhile_cons, hb, ← ih]

/-- If the separator does not occur, Python's split returns the whole string. -/
theorem splitCh_of_not_mem {sep : Char} {l : List Char} (h : sep ∉ l) :
    splitCh sep l = [l] := by
  induction l with
  | nil => rfl
  | cons c cs ih =>
    simp only [List.mem_cons, not_or] at h
    have hc : c ≠ sep := fun hcs => h.1 hcs.symm
    simp [splitCh, hc, ih h.2]

/-- The segment of a character list after its last occurrence of `sep`
(the whole list when `sep` does not occur).  This is the specification-side
description of `x.split(sep)[-1]`. -/
def lastSegment (sep : Char) : List Char → List Char
  | [] => []
  | c :: cs => if sep ∈ cs then lastSegment sep cs else if c = sep then cs else c :: cs

theorem lastSegment_of_not_mem {sep : Char} {l : List Char} (h : sep ∉ l) :
    lastSegment sep l = l := by
  cases l with
  | nil => rfl
  | cons c cs =>
    simp only [List.mem_cons, not_or] at h
    have hc : c ≠ sep := fun hcs => h.1 hcs.symm
    simp [lastSegment, h.2, hc]

/-- A single group means the separator never occurred. -/
theorem not_mem_of_splitCh_singleton {sep : Char} :
    ∀ {l g : List Char}, splitCh sep l = [g] → sep ∉ l := by
  intro l
  induction l with
  | nil => intro g _; simp
  | cons c cs ih =>
    intro g hs
    by_cases h : c = sep
    · subst h
      simp only [splitCh, reduceIte] at hs
      injection hs with h1 h2
      exact absurd h2 (splitCh_ne_nil c cs)
    · simp only [splitCh, h, reduceIte] at hs
      cases hcs : splitCh sep cs with
      | nil => exact absurd hcs (splitCh_ne_nil sep cs)
      | cons g' gs' =>
        rw [hcs] at hs
        cases hs
        have : sep ∉ cs := ih hcs
        simp only [List.mem_cons, not_or]
        exact ⟨fun hc => h hc.symm, this⟩

/-- `x.split(sep)[-1]` computes the segment after the last separator. -/
theorem splitCh_getLastD (sep : Char) (l : List Char) :
    (splitCh sep l).getLastD [] = lastSegment sep l := by
  induction l with
  | nil => rfl
  | cons c cs ih =>
    by_cases h : c = sep
    · subst h
      simp only [splitCh, reduceIte, lastSegment]
      cases hs : splitCh c cs with
      | nil => exact absurd hs (splitCh_ne_nil c cs)
      | cons g gs =>
        rw [hs] at ih
        by_cases hmem : c ∈ cs
        · simp only [hmem, reduceIte]
          rw [← ih]
          simp [List.getLastD_cons]
        · simp only [hmem, reduceIte]
          rw [splitCh_of_not_mem hmem] at hs
          cases hs
          simp [List.getLastD_cons, lastSegment_of_not_mem hmem]
    · simp only [splitCh, h, reduceIte]
      cases hs : splitCh sep cs with
      | nil => exact absurd hs (splitCh_ne_nil sep cs)
      | cons g gs =>
        rw [hs] at ih
        cases gs with
        | nil =>
          have hmem : sep ∉ cs := not_mem_of_splitCh_singleton hs
          rw [splitCh_of_not_mem hmem] at hs
          cases hs
          simp [List.getLastD_cons, lastSegment, hmem, h]
        | cons g2 gs2 =>
          have hmem : sep ∈ cs := by
            by_contra hmem
            rw [splitCh_of_not_mem hmem] at hs
            cases hs
          simp only [lastSegment, hmem, reduceIte]
          rw [← ih]
          simp [List.getLastD_cons]

/-- `Main track` column of the scheduling notebook: `x.split(":")[0]`. -/
def pyMainTrack (s : String) : String := ⟨(splitCh ':' s.data).headD []⟩

/-- `Track` column of the scheduling notebook:
`re.sub('[\W_]+', '', x.split(":")[-1])`, i.e. the group after the *last*
colon with every non-alphanumeric character removed (ASCII model of `\w`). -/
def pySubTrack (s : String) : String :=
  ⟨((splitCh ':' s.data).getLastD []).filter Char.isAlphanum⟩

/-- Specification-side main track: the prefix of the name before the first colon. -/
def specMainTrack (s : String) : String := ⟨s.data.takeWhile (fun c => !(c == ':'))⟩

/-- Specification-side sub track as the claim words it:
the remainder of the name after the *first* colon. -/
def specSubTrackFirstColon (s : String) : String :=
  ⟨(s.data.dropWhile (fun c => !(c == ':'))).drop 1⟩

/-- The claim's track-splitting property at one track name. -/
def trackSplitClaim (s : String) : Prop :=
  pyMainTrack s = specMainTrack s ∧ pySubTrack s = specSubTrackFirstColon s

instance (s : String) : Decidable (trackSplitClaim s) := by
  unfold trackSplitClaim; infer_instance

/-- **C8, counterexample.**  At the track name `"PyData: Machine Learning"` the
derived sub-track is `"MachineLearning"` (segment after the last colon with
non-alphanumeric characters removed), not the remainder after the first colon
`" Machine Learning"`, so the claimed splitting property fails. -/
theorem trackSplit_counterexample : ¬ trackSplitClaim "PyData: Machine Learning" := by
  decide

/-- **C8 (amended).**  For every track name, the derived main track is the prefix
of the name before the first colon, and the derived sub track is the segment of
the name after the *last* colon (the whole name when no colon occurs) with every
non-alphanumeric character removed. -/
theorem trackSplit_amended (s : String) :
    pyMainTrack s = specMainTrack s ∧
      pySubTrack s = ⟨(lastSegment ':' s.data).filter Char.isAlphanum⟩ := by
  constructor
  · show String.mk ((splitCh ':' s.data).headD []) = _
    rw [splitCh_headD]
    rfl
  · show String.mk (((splitCh ':' s.data).getLastD []).filter Char.isAlphanum) = _
    rw [splitCh_getLastD]

/-! ## The schedule MIP (scheduling notebook)

The notebook builds a pyomo model over index sets `sTalks`, `sDays`,
`sSessions`, `sSlots`, `sRooms`, `sMainTracks`, `sSubTracks`, with the binary
decision variable `vbSchedule[t, d, s, l, r]` and binary auxiliaries
`vbCoOccurences`, `vbMainTrackSessionRoom`, `vbSubTrackSessionRoom`.  The
ordered index sets are modelled by `Fin` types, a `(day, session, slot, room)`
tuple by the product type `Slot`, and every model quantity by `ℚ` (the LP
relaxation field; all parameters of the notebook are exact fractions). -/

structure MipData where
  nT : Nat
  nD : Nat
  nS : Nat
  nL : Nat
  nR : Nat
  nM : Nat
  nB : Nat
  slotLen : Fin nD × Fin nS × Fin nL × Fin nR → ℚ
  talkLen : Fin nT → ℚ
  pref : Fin nT → Fin nD × Fin nS × Fin nL × Fin nR → ℚ
  fitP : Fin nT → Fin nR → ℚ
  coocP : Fin nT → Fin nT → ℚ
  t2m : Fin nT → Fin nM → ℚ
  t2s : Fin nT → Fin nB → ℚ

/-- A `(day, session, slot, room)` tuple. -/
abbrev Slot (m : MipData) := Fin m.nD × Fin m.nS × Fin m.nL × Fin m.nR

/-- The room component of a slot tuple. -/
def slotRoom {m : MipData} (q : Slot m) : Fin m.nR := q.2.2.2

/-- One assignment of values to all variables of the model. -/
structure MipSol (m : MipData) where
  x : Fin m.nT → Slot m → ℚ
  co : Fin m.nT → Fin m.nT → ℚ
  mtv : Fin m.nD → Fin m.nS → Fin m.nR → Fin m.nM → ℚ
  stv : Fin m.nD → Fin m.nS → Fin m.nR → Fin m.nB → ℚ

/-- The 0/1 domain `pyo.Binary`. -/
def IsBin (v : ℚ) : Prop := v = 0 ∨ v = 1

/-- `vbTalkRoom[t, r] = Σ_{d,s,l} vbSchedule[t,d,s,l,r]`. -/
def xRoom (m : MipData) (sol : MipSol m) (t : Fin m.nT) (r : Fin m.nR) : ℚ :=
  ∑ p : Fin m.nD × Fin m.nS × Fin m.nL, sol.x t (p.1, p.2.1, p.2.2, r)

/-- `vbParallelTalk[t, d, s, l] = Σ_r vbSchedule[t,d,s,l,r]`. -/
def xPar (m : MipData) (sol : MipSol m) (t : Fin m.nT)
    (d : Fin m.nD) (s : Fin m.nS) (l : Fin m.nL) : ℚ :=
  ∑ r, sol.x t (d, s, l, r)

/-- `vbTalkSession[t, d, s, r] = Σ_l vbSchedule[t,d,s,l,r]`. -/
def xSess (m : MipData) (sol : MipSol m) (t : Fin m.nT)
    (d : Fin m.nD) (s : Fin m.nS) (r : Fin m.nR) : ℚ :=
  ∑ l, sol.x t (d, s, l, r)

/-- All constraints of the built model: the binary domains, `ctTalkSlotFit`,
`ctTimeRoomOccup`, `ctTalkAssigned`, `ctCoOccurences`,
`ctMainTrackSessionRoom` and `ctSubTrackSessionRoom`. -/
def Feasible (m : MipData) (sol : MipSol m) : Prop :=
  (∀ t q, IsBin (sol.x t q)) ∧
  (∀ t1 t2, IsBin (sol.co t1 t2)) ∧
  (∀ d s r mt', IsBin (sol.mtv d s r mt')) ∧
  (∀ d s r st', IsBin (sol.stv d s r st')) ∧
  (∀ t, ∑ q : Slot m, sol.x t q * m.slotLen q = m.talkLen t) ∧
  (∀ q : Slot m, ∑ t, sol.x t q ≤ 1) ∧
  (∀ t, ∑ q : Slot m, sol.x t q = 1) ∧
  (∀ t1 t2 : Fin m.nT, t1 < t2 → ∀ d s l,
    xPar m sol t1 d s l + xPar m sol t2 d s l ≤ sol.co t1 t2 + 1) ∧
  (∀ d s r mt', ∑ t, xSess m sol t d s r * m.t2m t mt' ≤ sol.mtv d s r mt' * m.nL) ∧
  (∀ d s r st', ∑ t, xSess m sol t d s r * m.t2s t st' ≤ sol.stv d s r st' * m.nL)

/-- A sum of 0/1 values counts the positions holding the value 1. -/
theorem sum_bin_eq_card {ι : Type} [Fintype ι] [DecidableEq ι] (f : ι → ℚ)
    (hb : ∀ i, f i = 0 ∨ f i = 1) :
    ∑ i, f i = ((Finset.univ.filter (fun i => f i = 1)).card : ℚ) := by
  rw [Finset.card_filter]
  push_cast
  apply Finset.sum_congr rfl
  intro i _
  rcases hb i with h | h <;> simp [h]

/-- A 0/1 family summing to exactly 1 has exactly one position holding 1. -/
theorem existsUnique_of_sum_bin_eq_one {ι : Type} [Fintype ι] [DecidableEq ι]
    (f : ι → ℚ) (hb : ∀ i, f i = 0 ∨ f i = 1) (h1 : ∑ i, f i = 1) :
    ∃! i, f i = 1 := by
  have hc : (Finset.univ.filter (fun i => f i = 1)).card = 1 := by
    have hs := sum_bin_eq_card f hb
    rw [h1] at hs
    exact_mod_cast hs.symm
  obtain ⟨a, ha⟩ := Finset.card_eq_one.mp hc
  refine ⟨a, ?_, ?_⟩
  · have hm : a ∈ Finset.univ.filter (fun i => f i = 1) := by
      rw [ha]; exact Finset.mem_singleton_self a
    exact (Finset.mem_filter.mp hm).2
  · intro j hj
    have hm : j ∈ Finset.univ.filter (fun i => f i = 1) :=
      Finset.mem_filter.mpr ⟨Finset.mem_univ j, hj⟩
    rw [ha] at hm
    exact Finset.mem_singleton.mp hm

/-- A 0/1 family summing to at most 1 holds the value 1 at most once. -/
theorem eq_of_sum_bin_le_one {ι : Type} [Fintype ι] [DecidableEq ι]
    (f : ι → ℚ) (hb : ∀ i, f i = 0 ∨ f i = 1) (h1 : ∑ i, f i ≤ 1)
    {i j : ι} (hi : f i = 1) (hj : f j = 1) : i = j := by
  by_contra hne
  have h2 : ∑ k ∈ ({i, j} : Finset ι), f k = 2 := by
    rw [Finset.sum_pair hne, hi, hj]; norm_num
  have hle : (2 : ℚ) ≤ ∑ k, f k := by
    rw [← h2]
    apply Finset.sum_le_sum_of_subset_of_nonneg (Finset.subset_univ _)
    intro k _ _
    rcases hb k with h | h <;> simp [h]
  linarith

/-- **C2.**  Every 0/1 assignment satisfying the constraints of the built MIP
model schedules each talk in exactly one `(day, session, slot, room)` tuple,
that tuple's slot length equals the talk's declared length, and no tuple is
occupied by more than one talk. -/
theorem mip_feasible_schedule_wellformed (m : MipData) (sol : MipSol m)
    (h : Feasible m sol) :
    (∀ t, ∃! q : Slot m, sol.x t q = 1) ∧
    (∀ t q, sol.x t q = 1 → m.slotLen q = m.talkLen t) ∧
    (∀ (q : Slot m) (t1 t2 : Fin m.nT), sol.x t1 q = 1 → sol.x t2 q = 1 → t1 = t2) := by
  obtain ⟨hbx, _, _, _, hfit, hoccup, hassign, _, _, _⟩ := h
  have huniq : ∀ t, ∃! q : Slot m, sol.x t q = 1 := fun t =>
    existsUnique_of_sum_bin_eq_one (sol.x t) (hbx t) (hassign t)
  refine ⟨huniq, ?_, ?_⟩
  · intro t q hq
    have hzero : ∀ q' ∈ (Finset.univ : Finset (Slot m)), q' ≠ q →
        sol.x t q' * m.slotLen q' = 0 := by
      intro q' _ hne
      rcases hbx t q' with h0 | h1
      · rw [h0, zero_mul]
      · exact absurd ((huniq t).unique h1 hq) hne
    have hsum := hfit t
    rw [Finset.sum_eq_single q hzero (fun hq' => absurd (Finset.mem_univ q) hq')] at hsum
    rw [hq, one_mul] at hsum
    exact hsum
    -- the sum collapses to the unique chosen tuple
  · intro q t1 t2 h1 h2
    exact eq_of_sum_bin_le_one (fun t => sol.x t q) (fun t => hbx t q) (hoccup q) h1 h2

/-- **C2, witness input.**  A one-talk, one-slot model with matching lengths
satisfies all constraints, and the well-formedness conclusions evaluate there. -/
def mipW : MipData where
  nT := 1
  nD := 1
  nS := 1
  nL := 1
  nR := 1
  nM := 1
  nB := 1
  slotLen := fun _ => 30
  talkLen := fun _ => 30
  pref := fun _ _ => 1
  fitP := fun _ _ => 1
  coocP := fun _ _ => 0
  t2m := fun _ _ => 0
  t2s := fun _ _ => 0

def mipWSol : MipSol mipW where
  x := fun _ _ => 1
  co := fun _ _ => 0
  mtv := fun _ _ _ _ => 0
  stv := fun _ _ _ _ => 0

theorem mipW_feasible : Feasible mipW mipWSol := by
  refine ⟨?_, ?_, ?_, ?_, ?_, ?_, ?_, ?_, ?_, ?_⟩ <;>
    simp [IsBin, mipW, mipWSol, xPar, xSess, Fintype.sum_unique]

theorem mip_feasible_schedule_wellformed_witness :
    Feasible mipW mipWSol ∧
      ((∀ t, ∃! q : Slot mipW, mipWSol.x t q = 1) ∧
        (∀ t q, mipWSol.x t q = 1 → mipW.slotLen q = mipW.talkLen t) ∧
        (∀ (q : Slot mipW) (t1 t2 : Fin mipW.nT),
          mipWSol.x t1 q = 1 → mipWSol.x t2 q = 1 → t1 = t2)) :=
  ⟨mipW_feasible, mip_feasible_schedule_wellformed mipW mipWSol mipW_feasible⟩

/-- The objective function of the notebook, term for term:

```python
return 100_000_000*preference_term + 1_000_000*pop_roomcap_term
       - 10_000*cooccurance_term - 100*main_tack_term - sub_track_term
```

with `preference_term = dot_product(pPreferences, vbSchedule)`,
`pop_roomcap_term = dot_product(pTalkRoomFit, vbTalkRoom)`,
`cooccurance_term = Σ_{t1<t2} vbCoOccurences·pCoOccurencesPenalty`, and the
track terms summing the session-track indicator variables. -/
def objective (m : MipData) (sol : MipSol m) : ℚ :=
  100000000 * (∑ t, ∑ q : Slot m, m.pref t q * sol.x t q)
    + 1000000 * (∑ t, ∑ r, m.fitP t r * xRoom m sol t r)
    - 10000 * (∑ p ∈ Finset.univ.filter (fun p : Fin m.nT × Fin m.nT => p.1 < p.2),
        sol.co p.1 p.2 * m.coocP p.1 p.2)
    - 100 * (∑ d, ∑ s, ∑ r, ∑ mt', sol.mtv d s r mt')
    - ∑ d, ∑ s, ∑ r, ∑ st', sol.stv d s r st'

/-- The set of chosen `(talk, tuple)` placements of a 0/1 schedule. -/
def chosenPlacements (m : MipData) (sol : MipSol m) : Finset (Fin m.nT × Slot m) :=
  Finset.univ.filter (fun p => sol.x p.1 p.2 = 1)

/-- Specification-side preference tier: slot-preference values summed over the
chosen slots. -/
def chosenPrefSum (m : MipData) (sol : MipSol m) : ℚ :=
  ∑ p ∈ chosenPlacements m sol, m.pref p.1 p.2

/-- Specification-side capacity tier: talk-room fit summed over the talk-room
placements of the chosen slots. -/
def chosenFitSum (m : MipData) (sol : MipSol m) : ℚ :=
  ∑ p ∈ chosenPlacements m sol, m.fitP p.1 (slotRoom p.2)

theorem sum_mul_bin_eq_sum_filter {ι : Type} [Fintype ι] [DecidableEq ι]
    (f g : ι → ℚ) (hb : ∀ i, g i = 0 ∨ g i = 1) :
    ∑ i, f i * g i = ∑ i ∈ Finset.univ.filter (fun i => g i = 1), f i := by
  rw [Finset.sum_filter]
  apply Finset.sum_congr rfl
  intro i _
  rcases hb i with h | h <;> simp [h]

theorem sum_pair_split {ι κ : Type} [Fintype ι] [Fintype κ]
    (F : ι × κ → ℚ) : ∑ p : ι × κ, F p = ∑ i, ∑ j, F (i, j) :=
  Fintype.sum_prod_type F

/-- Regrouping a `(day, session, slot)`-triple and a room into a slot tuple. -/
def slotEquiv (m : MipData) : (Fin m.nD × Fin m.nS × Fin m.nL) × Fin m.nR ≃ Slot m where
  toFun := fun p => (p.1.1, p.1.2.1, p.1.2.2, p.2)
  invFun := fun q => ((q.1, q.2.1, q.2.2.1), q.2.2.2)
  left_inv := fun _ => rfl
  right_inv := fun _ => rfl

/-- **C6.**  On 0/1 schedules the maximized objective decomposes exactly into
`10^8`·(preferences over chosen slots) `+ 10^6`·(talk-room fit over chosen
placements) `− 10^4`·(co-occurrence penalties over the parallel-pair
indicators) `− 10^2`·(main-track session indicators) `−` (sub-track session
indicators). -/
theorem objective_decomposition (m : MipData) (sol : MipSol m)
    (hb : ∀ t q, IsBin (sol.x t q)) :
    objective m sol =
      10 ^ 8 * chosenPrefSum m sol + 10 ^ 6 * chosenFitSum m sol
        - 10 ^ 4 * (∑ p ∈ Finset.univ.filter (fun p : Fin m.nT × Fin m.nT => p.1 < p.2),
            sol.co p.1 p.2 * m.coocP p.1 p.2)
        - 10 ^ 2 * (∑ d, ∑ s, ∑ r, ∑ mt', sol.mtv d s r mt')
        - ∑ d, ∑ s, ∑ r, ∑ st', sol.stv d s r st' := by
  have hpref : ∑ t, ∑ q : Slot m, m.pref t q * sol.x t q = chosenPrefSum m sol := by
    calc ∑ t, ∑ q : Slot m, m.pref t q * sol.x t q
        = ∑ p : Fin m.nT × Slot m, m.pref p.1 p.2 * sol.x p.1 p.2 :=
          (sum_pair_split (fun p : Fin m.nT × Slot m => m.pref p.1 p.2 * sol.x p.1 p.2)).symm
      _ = chosenPrefSum m sol :=
          sum_mul_bin_eq_sum_filter (fun p : Fin m.nT × Slot m => m.pref p.1 p.2)
            (fun p => sol.x p.1 p.2) (fun p => hb p.1 p.2)
  have hfit : ∑ t, ∑ r, m.fitP t r * xRoom m sol t r = chosenFitSum m sol := by
    have hswap : ∀ t, ∑ r, m.fitP t r * xRoom m sol t r
        = ∑ q : Slot m, m.fitP t (slotRoom q) * sol.x t q := by
      intro t
      calc ∑ r, m.fitP t r * xRoom m sol t r
          = ∑ r, ∑ p : Fin m.nD × Fin m.nS × Fin m.nL,
              m.fitP t r * sol.x t (p.1, p.2.1, p.2.2, r) := by
            apply Finset.sum_congr rfl
            intro r _
            rw [xRoom, Finset.mul_sum]
        _ = ∑ p : Fin m.nD × Fin m.nS × Fin m.nL, ∑ r,
              m.fitP t r * sol.x t (p.1, p.2.1, p.2.2, r) := Finset.sum_comm
        _ = ∑ pr : (Fin m.nD × Fin m.nS × Fin m.nL) × Fin m.nR,
              m.fitP t pr.2 * sol.x t (pr.1.1, pr.1.2.1, pr.1.2.2, pr.2) :=
            (sum_pair_split (fun pr : (Fin m.nD × Fin m.nS × Fin m.nL) × Fin m.nR =>
              m.fitP t pr.2 * sol.x t (pr.1.1, pr.1.2.1, pr.1.2.2, pr.2))).symm
        _ = ∑ q : Slot m, m.fitP t (slotRoom q) * sol.x t q :=
            Fintype.sum_equiv (slotEquiv m)
              (fun pr => m.fitP t pr.2 * sol.x t (pr.1.1, pr.1.2.1, pr.1.2.2, pr.2))
              (fun q => m.fitP t (slotRoom q) * sol.x t q)
              (fun _ => rfl)
    calc ∑ t, ∑ r, m.fitP t r * xRoom m sol t r
        = ∑ t, ∑ q : Slot m, m.fitP t (slotRoom q) * sol.x t q :=
          Finset.sum_congr rfl (fun t _ => hswap t)
      _ = ∑ p : Fin m.nT × Slot m, m.fitP p.1 (slotRoom p.2) * sol.x p.1 p.2 :=
          (sum_pair_split (fun p : Fin m.nT × Slot m =>
            m.fitP p.1 (slotRoom p.2) * sol.x p.1 p.2)).symm
      _ = chosenFitSum m sol :=
          sum_mul_bin_eq_sum_filter
            (fun p : Fin m.nT × Slot m => m.fitP p.1 (slotRoom p.2))
            (fun p => sol.x p.1 p.2) (fun p => hb p.1 p.2)
  rw [objective, hpref, hfit]
  norm_num

/-- **C6, witness input.**  The objective decomposition evaluated on the
concrete one-talk model. -/
theorem objective_decomposition_witness :
    (∀ t q, IsBin (mipWSol.x t q)) ∧
      objective mipW mipWSol =
        10 ^ 8 * chosenPrefSum mipW mipWSol + 10 ^ 6 * chosenFitSum mipW mipWSol
          - 10 ^ 4 * (∑ p ∈ Finset.univ.filter
              (fun p : Fin mipW.nT × Fin mipW.nT => p.1 < p.2),
              mipWSol.co p.1 p.2 * mipW.coocP p.1 p.2)
          - 10 ^ 2 * (∑ d, ∑ s, ∑ r, ∑ mt', mipWSol.mtv d s r mt')
          - ∑ d, ∑ s, ∑ r, ∑ st', mipWSol.stv d s r st' :=
  ⟨fun _ _ => Or.inr rfl, objective_decomposition mipW mipWSol (fun _ _ => Or.inr rfl)⟩

/-! ## `np.median` over exact rationals

The scheduling notebook fills the popularity of talks without retained votes by

```python
for talk in set(talks_df[Col.submission].to_list()) - set(pops_dict.keys()):
    pops_dict[talk] = np.median(list(pops_dict.values()))
```

iterating over a Python *set*, whose order varies from run to run.  `medianQ`
embeds `np.median`: sort, then take the middle element (odd length) or the mean
of the two middle elements (even length). -/

def medSorted (s : List ℚ) : ℚ :=
  if s.length % 2 = 1 then s.getD (s.length / 2) 0
  else (s.getD (s.length / 2 - 1) 0 + s.getD (s.length / 2) 0) / 2

def medianQ (l : List ℚ) : ℚ := medSorted (List.insertionSort (· ≤ ·) l)

theorem medianQ_perm {l₁ l₂ : List ℚ} (h : l₁.Perm l₂) : medianQ l₁ = medianQ l₂ := by
  unfold medianQ
  congr 1
  exact List.eq_of_perm_of_sorted
    ((List.perm_insertionSort _ l₁).trans (h.trans (List.perm_insertionSort _ l₂).symm))
    (List.sorted_insertionSort _ l₁) (List.sorted_insertionSort _ l₂)

theorem getD_take (s : List ℚ) (c i : Nat) (h : i < c) (h2 : i < s.length) :
    (s.take c).getD i 0 = s.getD i 0 := by
  have hlen : i < (s.take c).length := by
    simp only [List.length_take]
    omega
  rw [List.getD_eq_getElem _ _ hlen, List.getD_eq_getElem _ _ h2]
  exact List.getElem_take s

theorem sorted_getD_le (s : List ℚ) (hs : s.Sorted (· ≤ ·)) (i j : Nat)
    (hij : i ≤ j) (hj : j < s.length) : s.getD i 0 ≤ s.getD j 0 := by
  rcases Nat.eq_or_lt_of_le hij with h | h
  · subst h; exact le_refl _
  · rw [List.getD_eq_getElem _ _ (lt_trans h hj), List.getD_eq_getElem _ _ hj]
    have := hs.rel_get_of_lt (a := ⟨i, lt_trans h hj⟩) (b := ⟨j, hj⟩) (Fin.mk_lt_mk.mpr h)
    simpa using this

/-- Inserting the median of a nonempty list into the list leaves the median
unchanged.  This is the reason the notebook's sequential median fill gives the
same value to every vote-less talk, in every set-iteration order. -/
theorem medianQ_append_medianQ (l : List ℚ) (hl : l ≠ []) :
    medianQ (l ++ [medianQ l]) = medianQ l := by
  set s := List.insertionSort (· ≤ ·) l with hs_def
  have hsort : s.Sorted (· ≤ ·) := List.sorted_insertionSort _ l
  have hperm : s.Perm l := List.perm_insertionSort _ l
  have hpos : 0 < s.length := by
    rw [hperm.length_eq]
    exact List.length_pos.mpr hl
  have hm_def : medianQ l = medSorted s := rfl
  set n := s.length with hn_def
  set c := (n + 1) / 2 with hc_def
  have hc1 : 1 ≤ c := by omega
  have hcn : c ≤ n := by omega
  set m := medSorted s with hm
  have key : s.getD (c - 1) 0 ≤ m ∧ (c < n → m ≤ s.getD c 0) := by
    by_cases hpar : n % 2 = 1
    · have h1 : c - 1 = n / 2 := by omega
      have hm2 : m = s.getD (n / 2) 0 := by
        rw [hm, medSorted, ← hn_def, if_pos hpar]
      constructor
      · rw [h1, ← hm2]
      · intro hc
        rw [hm2, ← h1]
        exact sorted_getD_le s hsort (c - 1) c (by omega) (by omega)
    · have hpar0 : n % 2 = 0 := by omega
      have hge2 : 2 ≤ n := by omega
      have hab : s.getD (n / 2 - 1) 0 ≤ s.getD (n / 2) 0 :=
        sorted_getD_le s hsort (n / 2 - 1) (n / 2) (by omega) (by omega)
      have hm2 : m = (s.getD (n / 2 - 1) 0 + s.getD (n / 2) 0) / 2 := by
        rw [hm, medSorted, ← hn_def, if_neg (by omega)]
      have hc2 : c = n / 2 := by omega
      constructor
      · rw [hc2, hm2]
        linarith
      · intro _
        rw [hm2, hc2]
        linarith
  set t := s.take c ++ m :: s.drop c with ht_def
  have hlen_take : (s.take c).length = c := by
    simp only [List.length_take]
    omega
  have ht_sorted : t.Sorted (· ≤ ·) := by
    have ham : ∀ a ∈ s.take c, a ≤ m := by
      intro a ha
      obtain ⟨i, hi, ha⟩ := List.mem_iff_getElem.mp ha
      have hic : i < c := by
        rw [hlen_take] at hi
        exact hi
      have hin : i < n := by omega
      have ha2 : a = s.getD i 0 := by
        rw [List.getD_eq_getElem s 0 hin, ← ha]
        exact List.getElem_take s
      rw [ha2]
      calc s.getD i 0 ≤ s.getD (c - 1) 0 :=
            sorted_getD_le s hsort i (c - 1) (by omega) (by omega)
        _ ≤ m := key.1
    refine List.pairwise_append.mpr ⟨?_, ?_, ?_⟩
    · exact List.Pairwise.sublist (List.take_sublist c s) hsort
    · rw [List.pairwise_cons]
      constructor
      · intro b hb
        obtain ⟨i, hi, hb⟩ := List.mem_iff_getElem.mp hb
        have hlend : (s.drop c).length = n - c := by simp [← hn_def]
        have hcd : c < n := by
          rw [hlend] at hi
          omega
        have hci : c + i < n := by
          rw [hlend] at hi
          omega
        have hb2 : b = s.getD (c + i) 0 := by
          rw [List.getD_eq_getElem s 0 hci, ← hb]
          exact List.getElem_drop s
        rw [hb2]
        calc m ≤ s.getD c 0 := key.2 hcd
          _ ≤ s.getD (c + i) 0 := sorted_getD_le s hsort c (c + i) (by omega) (by omega)
      · exact List.Pairwise.sublist (List.drop_sublist c s) hsort
    · intro a ha b hb
      rcases List.mem_cons.mp hb with rfl | hb2
      · exact ham a ha
      · exact hsort.rel_of_mem_take_of_mem_drop ha hb2
  have ht_perm : t.Perm (l ++ [m]) := by
    have hp0 : (s.take c ++ m :: s.drop c).Perm (m :: (s.take c ++ s.drop c)) :=
      List.perm_middle
    rw [List.take_append_drop] at hp0
    exact hp0.trans ((hperm.cons m).trans (List.perm_append_singleton m l).symm)
  have heq : List.insertionSort (· ≤ ·) (l ++ [m]) = t :=
    List.eq_of_perm_of_sorted
      ((List.perm_insertionSort _ _).trans ht_perm.symm)
      (List.sorted_insertionSort _ _) ht_sorted
  have ht_len : t.length = n + 1 := by
    rw [ht_def]
    simp only [List.length_append, List.length_cons, List.length_drop, hlen_take, ← hn_def]
    omega
  have htc : t.getD c 0 = m := by
    have hy : (s.take c).length ≤ c := by rw [hlen_take]
    rw [ht_def, List.getD_append_right _ _ _ _ hy, hlen_take]
    simp
  rw [hm_def]
  show medSorted (List.insertionSort (· ≤ ·) (l ++ [m])) = m
  rw [heq]
  by_cases hpar : n % 2 = 1
  · have hteven : ¬ t.length % 2 = 1 := by omega
    have hdiv : t.length / 2 = c := by omega
    have hx : c - 1 < (s.take c).length := by rw [hlen_take]; omega
    have htk : t.getD (c - 1) 0 = s.getD (c - 1) 0 := by
      rw [ht_def, List.getD_append _ _ _ _ hx]
      exact getD_take s c (c - 1) (by omega) (by omega)
    have hsm : s.getD (c - 1) 0 = m := by
      have h1 : c - 1 = n / 2 := by omega
      rw [h1, hm, medSorted, ← hn_def, if_pos hpar]
    rw [medSorted, if_neg hteven, hdiv, htk, hsm, htc]
    ring
  · have htodd : t.length % 2 = 1 := by omega
    have hdiv : t.length / 2 = c := by omega
    rw [medSorted, if_pos htodd, hdiv, htc]

/-! ## The median fill loop and run-to-run order independence -/

/-- The notebook's fill loop: for each vote-less talk, in the iteration order
`missing` of the Python set, append the median of the *current* dictionary
values.  `base` is `pops_dict` after the groupby-sum. -/
def fillPops (base : List (String × ℚ)) : List String → List (String × ℚ)
  | [] => base
  | t :: ts => fillPops (base ++ [(t, medianQ (base.map Prod.snd))]) ts

/-- Every fill writes the *same* value: the median of the original vote sums.
Sequentially inserting a median never moves the median. -/
theorem fillPops_eq (missing : List String) :
    ∀ base : List (String × ℚ), base ≠ [] →
      fillPops base missing =
        base ++ missing.map (fun t => (t, medianQ (base.map Prod.snd))) := by
  induction missing with
  | nil => intro base _; simp [fillPops]
  | cons t ts ih =>
    intro base hb
    have hmap : (base ++ [(t, medianQ (base.map Prod.snd))]).map Prod.snd
        = base.map Prod.snd ++ [medianQ (base.map Prod.snd)] := by simp
    have hmed : medianQ ((base ++ [(t, medianQ (base.map Prod.snd))]).map Prod.snd)
        = medianQ (base.map Prod.snd) := by
      rw [hmap]
      exact medianQ_append_medianQ _ (by simp [hb])
    show fillPops (base ++ [(t, medianQ (base.map Prod.snd))]) ts = _
    rw [ih _ (by simp), hmed]
    simp

/-- Looking a key up in a constant-valued association list. -/
theorem lookup_map_const (m : List String) (v : ℚ) (t : String) :
    (m.map (fun u => (u, v))).lookup t = if t ∈ m then some v else none := by
  induction m with
  | nil => simp
  | cons u us ih =>
    by_cases h : t = u
    · subst h
      simp [List.lookup]
    · have hb : (t == u) = false := beq_false_of_ne h
      simp [List.lookup, hb, ih, h]

/-! ## Run-to-run determinism of the set-driven constructions (C9)

Two constructions of the scheduling notebook enumerate Python sets, whose
iteration order changes across runs (string-hash randomization):

* `talk2idx = {v: k for k, v in enumerate(set(talks_df[Col.submission]))}`,
  used to lay out the user-vote matrix `X` and the Gram matrix `X.T @ X`;
* the median fill loop over `set(talks) - set(pops_dict.keys())`.

Both are modelled with the enumeration made an explicit parameter (a bijection
`idx`, a list `missing`), and the emitted values are proved independent of it.
The remaining steps of the assignment engine and of the model build are pure
functions of their inputs in this embedding (no other unordered collection
feeds an output value). -/

/-- The user-interaction matrix `X`: row `u`, column `idx t` holds user `u`'s
retained vote for talk `t` (0 when absent). -/
def voteMatrix {T : Type} {nU nT : Nat} (vote : Fin nU → T → ℚ) (idx : T ≃ Fin nT)
    (u : Fin nU) (i : Fin nT) : ℚ := vote u (idx.symm i)

/-- The co-occurrence Gram entry for two talks, read back from the matrix
`X.T @ X` at the positions assigned by `idx`, as the notebook does. -/
def coocEntry {T : Type} {nU nT : Nat} (vote : Fin nU → T → ℚ) (idx : T ≃ Fin nT)
    (t1 t2 : T) : ℚ :=
  ∑ u, voteMatrix vote idx u (idx t1) * voteMatrix vote idx u (idx t2)

theorem coocEntry_eq_sum {T : Type} {nU nT : Nat} (vote : Fin nU → T → ℚ)
    (idx : T ≃ Fin nT) (t1 t2 : T) :
    coocEntry vote idx t1 t2 = ∑ u, vote u t1 * vote u t2 := by
  unfold coocEntry voteMatrix
  simp

/-- **C9.**  The two set-order-sensitive computations of the pipeline emit
values independent of the set-iteration order, so two runs on identical inputs
produce identical co-occurrence entries and identical filled popularity maps
(and hence identical downstream parameters and files): the Gram entry for a
talk pair does not depend on the `talk2idx` enumeration, and the median-filled
popularity dictionary does not depend on the order in which the vote-less
talks are visited. -/
theorem run_to_run_determinism {T : Type} {nU nT : Nat}
    (vote : Fin nU → T → ℚ) (idx1 idx2 : T ≃ Fin nT)
    (base : List (String × ℚ)) (m1 m2 : List String)
    (hb : base ≠ []) (hperm : m1.Perm m2) :
    (∀ t1 t2 : T, coocEntry vote idx1 t1 t2 = coocEntry vote idx2 t1 t2) ∧
      (∀ t : String, (fillPops base m1).lookup t = (fillPops base m2).lookup t) := by
  constructor
  · intro t1 t2
    rw [coocEntry_eq_sum, coocEntry_eq_sum]
  · intro t
    rw [fillPops_eq m1 base hb, fillPops_eq m2 base hb,
      List.lookup_append, List.lookup_append,
      lookup_map_const, lookup_map_const]
    have hm : (t ∈ m1) ↔ (t ∈ m2) := hperm.mem_iff
    simp only [hm]

/-- **C9, witness input.**  The order-independence applied at a concrete talk
set, vote table and two concrete enumeration orders. -/
theorem run_to_run_determinism_witness :
    (["B", "C"] : List String) ≠ [] ∧
      (["D", "E"] : List String).Perm ["E", "D"] ∧
      ((∀ t1 t2 : Fin 2,
          coocEntry (fun (_ : Fin 1) (t : Fin 2) => (t : ℚ)) (Equiv.refl (Fin 2)) t1 t2
            = coocEntry (fun (_ : Fin 1) (t : Fin 2) => (t : ℚ)) (Equiv.refl (Fin 2)).symm t1 t2) ∧
        (∀ t : String,
          (fillPops [("B", 3), ("C", 6)] ["D", "E"]).lookup t
            = (fillPops [("B", 3), ("C", 6)] ["E", "D"]).lookup t)) := by
  refine ⟨by simp, by decide, ?_⟩
  exact run_to_run_determinism (fun (_ : Fin 1) (t : Fin 2) => (t : ℚ))
    (Equiv.refl (Fin 2)) (Equiv.refl (Fin 2)).symm
    [("B", 3), ("C", 6)] ["D", "E"] ["E", "D"] (by simp) (by decide)

/-! ## Talk-room fit (C7)

The notebook computes

```python
def quantize(x, n_bins):
    assert np.max(x) <= 1 and np.min(x) >= 0
    bins = np.linspace(0, 1, n_bins+1)
    return np.digitize(x, bins, right=True)/n_bins

pops_dict = votes_df.groupby(Col.submission)['Vote Score'].sum().to_dict()
for talk in set(...) - set(pops_dict.keys()):
    pops_dict[talk] = np.median(list(pops_dict.values()))
pops_dict = {k: (v - min_pop) / (max_pop - min_pop) for k, v in pops_dict.items()}
room_caps_dict = {k: (v - min_cap) / (max_cap - min_cap) ...}
talk_room_fit = {(talk, room): quantize(pop, n_bins=49)*cap for ...}
```

with `votes_df` beforehand restricted to accepted talks, scores `≤ 1` dropped
and a score of exactly 2 rescaled to 1. -/

/-- `np.digitize(x, np.linspace(0, 1, nb+1), right=True)`: the number of bin
edges `j/nb`, `j = 0..nb`, strictly below `x`. -/
def digitizeQ (x : ℚ) (nb : ℕ) : ℕ :=
  ((Finset.range (nb + 1)).filter (fun j : ℕ => (j : ℚ) / nb < x)).card

/-- The notebook's `quantize(x, n_bins)`. -/
def quantize (x : ℚ) (nb : ℕ) : ℚ := (digitizeQ x nb : ℚ) / nb

/-- In exact arithmetic the digitize count is the ceiling `⌈x·nb⌉` whenever
`0 ≤ x ≤ 1` (the function's own assert). -/
theorem digitizeQ_eq_ceil (x : ℚ) (nb : ℕ) (hnb : 0 < nb) (h0 : 0 ≤ x) (h1 : x ≤ 1) :
    (digitizeQ x nb : ℤ) = ⌈x * nb⌉ := by
  have hcnn : 0 ≤ ⌈x * nb⌉ := Int.ceil_nonneg (by positivity)
  have hcle : ⌈x * nb⌉ ≤ nb := by
    apply Int.ceil_le.mpr
    push_cast
    calc x * nb ≤ 1 * nb := by
          apply mul_le_mul_of_nonneg_right h1 (by positivity)
      _ = nb := one_mul _
  have hfe : (Finset.range (nb + 1)).filter (fun j : ℕ => (j : ℚ) / nb < x)
      = Finset.range (⌈x * nb⌉.toNat) := by
    ext j
    simp only [Finset.mem_filter, Finset.mem_range]
    have hiff : (j : ℚ) / nb < x ↔ j < ⌈x * nb⌉.toNat := by
      rw [div_lt_iff₀ (by positivity)]
      rw [show ((j : ℚ) < x * nb) ↔ ((j : ℤ) < ⌈x * nb⌉) from (Int.lt_ceil).symm]
      omega
    constructor
    · intro hj
      exact hiff.mp hj.2
    · intro hj
      refine ⟨?_, hiff.mpr hj⟩
      omega
  rw [digitizeQ, hfe, Finset.card_range]
  omega

/-- Retained public votes: restrict to accepted talks, drop scores `≤ 1`
("indifferent"), rescale a score of exactly 2 down to 1. -/
def retainVotes (talks : List String) (votes : List (String × ℚ)) : List (String × ℚ) :=
  ((votes.filter (fun v => talks.contains v.1)).filter (fun v => decide (1 < v.2))).map
    (fun v => if v.2 = 2 then (v.1, 1) else v)

/-- Sum of the retained vote scores of one talk (`groupby(...).sum()`). -/
def voteSum (rv : List (String × ℚ)) (t : String) : ℚ :=
  ((rv.filter (fun v => v.1 == t)).map Prod.snd).sum

/-- `pops_dict` after the groupby: one `(talk, vote-sum)` entry per talk with at
least one retained vote.  (The groupby orders keys alphabetically; the order of
entries carries no information, so first-appearance order is used here.) -/
def basePops (talks : List String) (votes : List (String × ℚ)) : List (String × ℚ) :=
  (talks.filter (fun t => (retainVotes talks votes).any (fun v => v.1 == t))).map
    (fun t => (t, voteSum (retainVotes talks votes) t))

/-- The talks without any retained vote (`set(talks) - set(pops_dict.keys())`),
in first-appearance order. -/
def missingTalks (talks : List String) (votes : List (String × ℚ)) : List String :=
  talks.filter (fun t => !((retainVotes talks votes).any (fun v => v.1 == t)))

/-- `pops_dict` after the median fill loop. -/
def popsFilled (talks : List String) (votes : List (String × ℚ)) : List (String × ℚ) :=
  fillPops (basePops talks votes) (missingTalks talks votes)

/-- `np.min` of a list of values. -/
def minList : List ℚ → ℚ
  | [] => 0
  | a :: as => as.foldl min a

/-- `np.max` of a list of values. -/
def maxList : List ℚ → ℚ
  | [] => 0
  | a :: as => as.foldl max a

/-- The min-max-normalized popularity of a talk. -/
def npop (talks : List String) (votes : List (String × ℚ)) (t : String) : ℚ :=
  (((popsFilled talks votes).lookup t).getD 0
      - minList ((popsFilled talks votes).map Prod.snd))
    / (maxList ((popsFilled talks votes).map Prod.snd)
      - minList ((popsFilled talks votes).map Prod.snd))

/-- The min-max-normalized capacity of a room. -/
def ncap (rooms : List (String × ℚ)) (r : String) : ℚ :=
  (((rooms.lookup r).getD 0) - minList (rooms.map Prod.snd))
    / (maxList (rooms.map Prod.snd) - minList (rooms.map Prod.snd))

/-- `talk_room_fit[(talk, room)] = quantize(pop, n_bins=49) * cap`. -/
def talkRoomFit (talks : List String) (votes : List (String × ℚ))
    (rooms : List (String × ℚ)) (t r : String) : ℚ :=
  quantize (npop talks votes t) 49 * ncap rooms r

theorem foldl_min_le_init (l : List ℚ) (a : ℚ) : l.foldl min a ≤ a := by
  induction l generalizing a with
  | nil => exact le_refl a
  | cons x xs ih => exact le_trans (ih (min a x)) (min_le_left a x)

theorem foldl_min_le_mem (l : List ℚ) (a v : ℚ) (h : v ∈ l) : l.foldl min a ≤ v := by
  induction l generalizing a with
  | nil => cases h
  | cons x xs ih =>
    rcases List.mem_cons.mp h with rfl | h2
    · exact le_trans (foldl_min_le_init xs (min a v)) (min_le_right a v)
    · exact ih (min a x) h2

theorem init_le_foldl_max (l : List ℚ) (a : ℚ) : a ≤ l.foldl max a := by
  induction l generalizing a with
  | nil => exact le_refl a
  | cons x xs ih => exact le_trans (le_max_left a x) (ih (max a x))

theorem mem_le_foldl_max (l : List ℚ) (a v : ℚ) (h : v ∈ l) : v ≤ l.foldl max a := by
  induction l generalizing a with
  | nil => cases h
  | cons x xs ih =>
    rcases List.mem_cons.mp h with rfl | h2
    · exact le_trans (le_max_right a v) (init_le_foldl_max xs (max a v))
    · exact ih (max a x) h2

theorem minList_le (l : List ℚ) (v : ℚ) (h : v ∈ l) : minList l ≤ v := by
  cases l with
  | nil => cases h
  | cons a as =>
    rcases List.mem_cons.mp h with rfl | h2
    · exact foldl_min_le_init as v
    · exact foldl_min_le_mem as a v h2

theorem le_maxList (l : List ℚ) (v : ℚ) (h : v ∈ l) : v ≤ maxList l := by
  cases l with
  | nil => cases h
  | cons a as =>
    rcases List.mem_cons.mp h with rfl | h2
    · exact init_le_foldl_max as v
    · exact mem_le_foldl_max as a v h2

theorem lookup_mem_values (l : List (String × ℚ)) (t : String) (v : ℚ)
    (h : l.lookup t = some v) : v ∈ l.map Prod.snd := by
  induction l with
  | nil => cases h
  | cons p ps ih =>
    cases p with
    | mk k w =>
      simp only [List.lookup] at h
      cases hab : (t == k) with
      | true =>
        rw [hab] at h
        injection h with h
        simp [← h]
      | false =>
        rw [hab] at h
        simp [ih h]

theorem lookup_isSome_of_mem_keys (l : List (String × ℚ)) (t : String)
    (h : t ∈ l.map Prod.fst) : ∃ v, l.lookup t = some v := by
  induction l with
  | nil => cases h
  | cons p ps ih =>
    cases p with
    | mk k w =>
      by_cases hk : t = k
      · subst hk
        exact ⟨w, by simp [List.lookup]⟩
      · have hb : (t == k) = false := beq_false_of_ne hk
        simp only [List.map_cons, List.mem_cons] at h
        rcases h with h | h
        · exact absurd h hk
        · obtain ⟨v, hv⟩ := ih h
          exact ⟨v, by simp [List.lookup, hb, hv]⟩

/-- The median fill adds exactly the missing keys. -/
theorem fillPops_keys (missing : List String) :
    ∀ base : List (String × ℚ),
      (fillPops base missing).map Prod.fst = base.map Prod.fst ++ missing := by
  induction missing with
  | nil => intro base; simp [fillPops]
  | cons t ts ih =>
    intro base
    show (fillPops (base ++ [(t, medianQ (base.map Prod.snd))]) ts).map Prod.fst = _
    rw [ih]
    simp

theorem mem_popsFilled_keys (talks : List String) (votes : List (String × ℚ))
    (t : String) (ht : t ∈ talks) :
    t ∈ (popsFilled talks votes).map Prod.fst := by
  rw [popsFilled, fillPops_keys]
  by_cases hp : (retainVotes talks votes).any (fun v => v.1 == t)
  · apply List.mem_append_left
    rw [basePops, List.map_map]
    have : (Prod.fst ∘ fun u => (u, voteSum (retainVotes talks votes) u)) = id := rfl
    rw [this, List.map_id]
    exact List.mem_filter.mpr ⟨ht, hp⟩
  · apply List.mem_append_right
    rw [missingTalks]
    refine List.mem_filter.mpr ⟨ht, ?_⟩
    cases hany : ((retainVotes talks votes).any (fun v => v.1 == t)) with
    | true => exact absurd hany hp
    | false => simp [hany]

/-- **C7, counterexample.**  With talks `A, B, C`, retained votes summing to
3 for `B` and 6 for `C` (so `A` gets the filled median 9/2, normalizing to
popularity 1/2) and rooms of capacities 5 and 10, the fit parameter of `(A, S)`
is `quantize(1/2, 49)·1 = 25/49`, not the claimed `quantize(1/2, 50)·1 = 1/2`:
the notebook quantizes with `n_bins=49`, not 50. -/
theorem talkRoomFit_counterexample :
    talkRoomFit ["A", "B", "C"] [("B", 3), ("C", 3), ("C", 3)] [("R", 5), ("S", 10)] "A" "S"
      ≠ quantize (npop ["A", "B", "C"] [("B", 3), ("C", 3), ("C", 3)] "A") 50
          * ncap [("R", 5), ("S", 10)] "S" := by
  have nBA : ¬ (("B" : String) = "A") := by decide
  have nBC : ¬ (("B" : String) = "C") := by decide
  have nCA : ¬ (("C" : String) = "A") := by decide
  have nCB : ¬ (("C" : String) = "B") := by decide
  have hrv : retainVotes ["A", "B", "C"] [("B", 3), ("C", 3), ("C", 3)]
      = [("B", 3), ("C", 3), ("C", 3)] := by
    norm_num [retainVotes, List.filter_cons]
  have hbase : basePops ["A", "B", "C"] [("B", 3), ("C", 3), ("C", 3)]
      = [("B", 3), ("C", 6)] := by
    norm_num [basePops, hrv, List.filter_cons, List.any_cons, voteSum,
      nBA, nBC, nCA, nCB]
  have hmiss : missingTalks ["A", "B", "C"] [("B", 3), ("C", 3), ("C", 3)] = ["A"] := by
    norm_num [missingTalks, hrv, List.filter_cons, List.any_cons, nBA, nBC, nCA, nCB]
  have hmed : medianQ [3, 6] = 9/2 := by
    norm_num [medianQ, medSorted, List.insertionSort, List.orderedInsert]
  have hfill : popsFilled ["A", "B", "C"] [("B", 3), ("C", 3), ("C", 3)]
      = [("B", 3), ("C", 6), ("A", 9/2)] := by
    rw [popsFilled, hbase, hmiss]
    norm_num [fillPops, hmed]
  have hlookA : ((([("B", (3:ℚ)), ("C", 6), ("A", 9/2)]).lookup "A").getD 0) = 9/2 := by
    have e1 : (("A" : String) == "B") = false := by decide
    have e2 : (("A" : String) == "C") = false := by decide
    have e3 : (("A" : String) == "A") = true := by decide
    simp [List.lookup, e1, e2, e3]
  have hnpop : npop ["A", "B", "C"] [("B", 3), ("C", 3), ("C", 3)] "A" = 1/2 := by
    rw [npop, hfill, hlookA]
    norm_num [minList, maxList, min_def, max_def]
  have hlookS : ((([("R", (5:ℚ)), ("S", 10)]).lookup "S").getD 0) = 10 := by
    have e1 : (("S" : String) == "R") = false := by decide
    have e2 : (("S" : String) == "S") = true := by decide
    simp [List.lookup, e1, e2]
  have hncap : ncap [("R", 5), ("S", 10)] "S" = 1 := by
    rw [ncap, hlookS]
    norm_num [minList, maxList, min_def, max_def]
  have hq49 : quantize (1/2) 49 = 25/49 := by
    have hd : (digitizeQ (1/2) 49 : ℤ) = ⌈(1/2 : ℚ) * 49⌉ :=
      digitizeQ_eq_ceil _ _ (by norm_num) (by norm_num) (by norm_num)
    have hc : (⌈(1/2 : ℚ) * 49⌉ : ℤ) = 25 := by
      rw [Int.ceil_eq_iff]
      constructor <;> norm_num
    have hd2 : digitizeQ (1/2) 49 = 25 := by omega
    rw [quantize, hd2]
    norm_num
  have hq50 : quantize (1/2) 50 = 1/2 := by
    have hd : (digitizeQ (1/2) 50 : ℤ) = ⌈(1/2 : ℚ) * 50⌉ :=
      digitizeQ_eq_ceil _ _ (by norm_num) (by norm_num) (by norm_num)
    have hc : (⌈(1/2 : ℚ) * 50⌉ : ℤ) = 25 := by
      rw [Int.ceil_eq_iff]
      constructor <;> norm_num
    have hd2 : digitizeQ (1/2) 50 = 25 := by omega
    rw [quantize, hd2]
    norm_num
  rw [talkRoomFit, hnpop, hncap, hq49, hq50]
  norm_num

/-- **C7 (amended).**  The talk-room fit parameter is
`quantize(normalized_popularity, 49) · normalized_capacity` (49 bins, i.e. 50
bin edges, not `quantize(·, 50)`), and for every talk the normalized popularity
produced by the pipeline lies in `[0, 1]`, satisfying `quantize`'s assert, as
long as the vote sums are not all equal. -/
theorem talkRoomFit_amended (talks : List String) (votes : List (String × ℚ))
    (rooms : List (String × ℚ)) (t r : String) (ht : t ∈ talks)
    (hpop : minList ((popsFilled talks votes).map Prod.snd)
      < maxList ((popsFilled talks votes).map Prod.snd)) :
    talkRoomFit talks votes rooms t r = quantize (npop talks votes t) 49 * ncap rooms r
      ∧ 0 ≤ npop talks votes t ∧ npop talks votes t ≤ 1 := by
  obtain ⟨v, hv⟩ := lookup_isSome_of_mem_keys _ _ (mem_popsFilled_keys talks votes t ht)
  have hvm : v ∈ (popsFilled talks votes).map Prod.snd := lookup_mem_values _ _ _ hv
  have h1 : minList ((popsFilled talks votes).map Prod.snd) ≤ v := minList_le _ _ hvm
  have h2 : v ≤ maxList ((popsFilled talks votes).map Prod.snd) := le_maxList _ _ hvm
  have hden : 0 < maxList ((popsFilled talks votes).map Prod.snd)
      - minList ((popsFilled talks votes).map Prod.snd) := by linarith
  refine ⟨rfl, ?_, ?_⟩
  · rw [npop, hv]
    apply div_nonneg _ (le_of_lt hden)
    simp only [Option.getD_some]
    linarith
  · rw [npop, hv]
    rw [div_le_one hden]
    simp only [Option.getD_some]
    linarith

/-- **C7, witness input.**  The amended fit formula and the `[0,1]` bound
evaluated at a concrete two-talk instance in which every talk has votes. -/
theorem talkRoomFit_amended_witness :
    (("A" : String) ∈ ["A", "B"] ∧
      minList ((popsFilled ["A", "B"] [("A", 3), ("B", 3), ("B", 3)]).map Prod.snd)
        < maxList ((popsFilled ["A", "B"] [("A", 3), ("B", 3), ("B", 3)]).map Prod.snd)) ∧
      (talkRoomFit ["A", "B"] [("A", 3), ("B", 3), ("B", 3)] [("R", 5), ("S", 10)] "A" "S"
          = quantize (npop ["A", "B"] [("A", 3), ("B", 3), ("B", 3)] "A") 49
              * ncap [("R", 5), ("S", 10)] "S"
        ∧ 0 ≤ npop ["A", "B"] [("A", 3), ("B", 3), ("B", 3)] "A"
        ∧ npop ["A", "B"] [("A", 3), ("B", 3), ("B", 3)] "A" ≤ 1) := by
  have nAB : ¬ (("A" : String) = "B") := by decide
  have nBA : ¬ (("B" : String) = "A") := by decide
  have hrv : retainVotes ["A", "B"] [("A", 3), ("B", 3), ("B", 3)]
      = [("A", 3), ("B", 3), ("B", 3)] := by
    norm_num [retainVotes, List.filter_cons]
  have hbase : basePops ["A", "B"] [("A", 3), ("B", 3), ("B", 3)]
      = [("A", 3), ("B", 6)] := by
    norm_num [basePops, hrv, List.filter_cons, List.any_cons, voteSum, nAB, nBA]
  have hmiss : missingTalks ["A", "B"] [("A", 3), ("B", 3), ("B", 3)] = [] := by
    norm_num [missingTalks, hrv, List.filter_cons, List.any_cons, nAB, nBA]
  have hfill : popsFilled ["A", "B"] [("A", 3), ("B", 3), ("B", 3)]
      = [("A", 3), ("B", 6)] := by
    rw [popsFilled, hbase, hmiss]
    rfl
  have hcond : minList ((popsFilled ["A", "B"] [("A", 3), ("B", 3), ("B", 3)]).map Prod.snd)
      < maxList ((popsFilled ["A", "B"] [("A", 3), ("B", 3), ("B", 3)]).map Prod.snd) := by
    rw [hfill]
    norm_num [minList, maxList, min_def, max_def]
  exact ⟨⟨by decide, hcond⟩,
    talkRoomFit_amended ["A", "B"] [("A", 3), ("B", 3), ("B", 3)] [("R", 5), ("S", 10)]
      "A" "S" (by decide) hcond⟩

/-! ## The reviewer assignment engine (selection notebook)

`assign_proposals(subs_df, reviewers_df, buffer)` from
`notebooks/pyconde-pydata-berlin-2023/30_selection_v1.ipynb`:

* each reviewer's current assignments start as a copy of their already-reviewed
  submission codes;
* a sanity check compares the set of tracks in any reviewer's preference list
  with the set of tracks of the submissions and raises with both difference
  sets on mismatch;
* submissions are sorted by `Col.rem_nreviews` (`max(0, target - completed)`)
  descending, the remaining-assignments counter is
  `rem.where(rem == 0, rem + buffer - n_assigned)` where `n_assigned` counts
  occurrences of the code across all current assignment lists;
* while the counters sum to a positive value, a pass over the rows assigns each
  row with a positive counter to `find_reviewer`'s choice (pandas `idxmin`
  returns the *first* index attaining the minimum) and decrements the counter;
* the caller runs the engine on the reviewers without the wants-all mark and
  then appends one row per wants-all reviewer holding every submission code.

Dataframes are lists; row labels are positions `0, 1, 2, …` (the notebook's
integer index); `idxmin` over a boolean mask is a first-minimum search over the
masked position list. -/

structure SubIn where
  code : String
  track : String
  target : Int
  completed : Int
deriving DecidableEq, Repr

structure Reviewer where
  email : String
  prefs : List String
  review : List String
  wantsAll : Bool
deriving DecidableEq, Repr

/-- `Col.rem_nreviews`: `(target - nreviews).map(lambda x: max(0, x))`. -/
def remNReviews (s : SubIn) : Int := max 0 (s.target - s.completed)

/-- The caller-supplied track-aliasing table `sub2review.get(x, x)`. -/
def applyAlias (al : List (String × String)) (tr : String) : String :=
  (al.lookup tr).getD tr

/-- `n_assigned`: occurrences of a code across all current assignment lists
(pandas `explode(...).value_counts()`, counting multiplicity). -/
def countAssigned (asg : List (List String)) (code : String) : Int :=
  ((asg.map (fun l => (l.filter (fun c => c == code)).length)).sum : Int)

/-- Errors of the engine: the preference sanity check (`RuntimeError` with both
difference sets) and pandas `idxmin` on an empty series (`ValueError`) when no
reviewer without the submission remains. -/
inductive EngErr where
  | trackMismatch (onlyRev onlySub : List String)
  | noReviewer (sub : String)
deriving DecidableEq, Repr

/-- Python set equality of the two track collections. -/
def setEqStr (xs ys : List String) : Bool :=
  xs.all (fun x => ys.contains x) && ys.all (fun y => xs.contains y)

/-- A Python set difference, as the distinct elements of `xs` not in `ys`. -/
def diffStr (xs ys : List String) : List String :=
  xs.dedup.filter (fun x => !(ys.contains x))

/-- `Current #Assignments` of reviewer `i` (kept equal to the length of the
current assignment list throughout the loop). -/
def loads (asg : List (List String)) (i : Nat) : Nat := (asg.getD i []).length

/-- `idxmin`: the first position among `l` (ascending) with the minimal load. -/
def argminLoad (asg : List (List String)) : List Nat → Option Nat
  | [] => none
  | i :: is =>
    match argminLoad asg is with
    | none => some i
    | some j => if loads asg j < loads asg i then some j else some i

/-- The row positions satisfying `is_preference & ~is_already_assigned`. -/
def candIdx (n : Nat) (prefs asg : List (List String)) (track sub : String) : List Nat :=
  (List.range n).filter
    (fun i => (prefs.getD i []).contains track && !((asg.getD i []).contains sub))

/-- The row positions satisfying `~is_already_assigned`. -/
def fallIdx (n : Nat) (asg : List (List String)) (sub : String) : List Nat :=
  (List.range n).filter (fun i => !((asg.getD i []).contains sub))

/-- `find_reviewer`: first-minimum over the preference candidates, else (with a
warning, the `Bool`) over all reviewers not yet assigned the submission, else
the `idxmin` `ValueError` (`none`). -/
def findReviewer (n : Nat) (prefs asg : List (List String)) (track sub : String) :
    Option (Nat × Bool) :=
  match argminLoad asg (candIdx n prefs asg track sub) with
  | some j => some (j, false)
  | none =>
    match argminLoad asg (fallIdx n asg sub) with
    | some j => some (j, true)
    | none => none

/-- Append one code to reviewer `i`'s current assignments. -/
def appendAt (asg : List (List String)) (i : Nat) (c : String) : List (List String) :=
  asg.set i ((asg.getD i []) ++ [c])

/-- One `for row_idx, row in subs_df.iterrows()` pass: every row with a
positive counter is assigned one reviewer and decremented by exactly one. -/
def passGo (n : Nat) (prefs : List (List String)) :
    List (SubIn × Int) → List (List String) →
      Except EngErr (List (SubIn × Int) × List (List String))
  | [], asg => Except.ok ([], asg)
  | (s, r) :: rest, asg =>
    if 0 < r then
      match findReviewer n prefs asg s.track s.code with
      | none => Except.error (EngErr.noReviewer s.code)
      | some (i, _) =>
        match passGo n prefs rest (appendAt asg i s.code) with
        | Except.error e => Except.error e
        | Except.ok (rest', asg') => Except.ok ((s, r - 1) :: rest', asg')
    else
      match passGo n prefs rest asg with
      | Except.error e => Except.error e
      | Except.ok (rest', asg') => Except.ok ((s, r) :: rest', asg')

/-- `sum(col_rem_assign)`, the `while` condition. -/
def remSum (rows : List (SubIn × Int)) : Int := (rows.map (fun p => p.2)).sum

/-- The termination measure: the sum of the positive counters. -/
def posSum (rows : List (SubIn × Int)) : Nat := (rows.map (fun p => p.2.toNat)).sum

/-- The effect of one pass on the rows. -/
def stepRow (p : SubIn × Int) : SubIn × Int := if 0 < p.2 then (p.1, p.2 - 1) else p

theorem passGo_ok_rows (n : Nat) (prefs : List (List String)) :
    ∀ (rows : List (SubIn × Int)) (asg : List (List String)) rows' asg',
      passGo n prefs rows asg = Except.ok (rows', asg') → rows' = rows.map stepRow := by
  intro rows
  induction rows with
  | nil =>
    intro asg rows' asg' h
    simp only [passGo] at h
    injection h with h
    injection h with h1 h2
    simp [← h1]
  | cons p rest ih =>
    intro asg rows' asg' h
    cases p with
    | mk s r =>
      simp only [passGo] at h
      by_cases hr : 0 < r
      · rw [if_pos hr] at h
        cases hf : findReviewer n prefs asg s.track s.code with
        | none => rw [hf] at h; cases h
        | some iw =>
          obtain ⟨i, w⟩ := iw
          rw [hf] at h
          dsimp only at h
          cases hrec : passGo n prefs rest (appendAt asg i s.code) with
          | error e => rw [hrec] at h; cases h
          | ok pr =>
            rw [hrec] at h
            obtain ⟨rest2, asg2⟩ := pr
            injection h with h
            injection h with h1 h2
            rw [← h1, List.map_cons]
            have := ih _ _ _ hrec
            rw [show stepRow (s, r) = (s, r - 1) from if_pos hr, ← this]
      · rw [if_neg hr] at h
        cases hrec : passGo n prefs rest asg with
        | error e => rw [hrec] at h; cases h
        | ok pr =>
          rw [hrec] at h
          obtain ⟨rest2, asg2⟩ := pr
          injection h with h
          injection h with h1 h2
          rw [← h1, List.map_cons]
          have := ih _ _ _ hrec
          rw [show stepRow (s, r) = (s, r) from if_neg hr, ← this]

theorem posSum_map_step_le (rows : List (SubIn × Int)) :
    posSum (rows.map stepRow) ≤ posSum rows := by
  induction rows with
  | nil => exact le_refl _
  | cons p rest ih =>
    simp only [posSum, List.map_cons, List.sum_cons] at ih ⊢
    have hp : (stepRow p).2.toNat ≤ p.2.toNat := by
      rw [stepRow]
      by_cases h : 0 < p.2
      · rw [if_pos h]; omega
      · rw [if_neg h]
    omega

theorem posSum_map_step_lt (rows : List (SubIn × Int)) (h : 0 < remSum rows) :
    posSum (rows.map stepRow) < posSum rows := by
  induction rows with
  | nil => simp [remSum] at h
  | cons p rest ih =>
    simp only [remSum, List.map_cons, List.sum_cons] at h
    simp only [posSum, List.map_cons, List.sum_cons]
    by_cases hp : 0 < p.2
    · have h1 : (stepRow p).2.toNat < p.2.toNat := by
        rw [stepRow, if_pos hp]; omega
      have h2 := posSum_map_step_le rest
      simp only [posSum] at h2
      omega
    · have h1 : (stepRow p).2 = p.2 := by rw [stepRow, if_neg hp]
      have h3 : 0 < remSum rest := by
        simp only [remSum]; omega
      have := ih h3
      simp only [posSum] at this
      rw [h1]
      omega

/-- The `while subs_df[col_rem_assign].sum() > 0` loop, by well-founded
recursion over the positive-counter sum. -/
def loopGo (n : Nat) (prefs : List (List String)) (rows : List (SubIn × Int))
    (asg : List (List String)) : Except EngErr (List (List String)) :=
  if h : 0 < remSum rows then
    match hp : passGo n prefs rows asg with
    | Except.error e => Except.error e
    | Except.ok (rows', asg') => loopGo n prefs rows' asg'
  else Except.ok asg
termination_by posSum rows
decreasing_by
  rw [passGo_ok_rows n prefs rows asg rows' asg' hp]
  exact posSum_map_step_lt rows h

/-- The same loop with explicit fuel (one unit per pass); `none` means the
fuel ran out. -/
def loopFuel (n : Nat) (prefs : List (List String)) :
    Nat → List (SubIn × Int) → List (List String) →
      Option (Except EngErr (List (List String)))
  | 0, _, _ => none
  | fuel + 1, rows, asg =>
    if 0 < remSum rows then
      match passGo n prefs rows asg with
      | Except.error e => some (Except.error e)
      | Except.ok (rows', asg') => loopFuel n prefs fuel rows' asg'
    else some (Except.ok asg)

theorem loopFuel_agrees (n : Nat) (prefs : List (List String)) :
    ∀ (fuel : Nat) (rows : List (SubIn × Int)) (asg : List (List String)) res,
      loopFuel n prefs fuel rows asg = some res → loopGo n prefs rows asg = res := by
  intro fuel
  induction fuel with
  | zero => intro rows asg res h; cases h
  | succ f ih =>
    intro rows asg res h
    rw [loopGo]
    simp only [loopFuel] at h
    by_cases hc : 0 < remSum rows
    · rw [if_pos hc] at h
      rw [dif_pos hc]
      cases hpass : passGo n prefs rows asg with
      | error e =>
        rw [hpass] at h
        dsimp only at h
        injection h with h
      | ok pr =>
        rw [hpass] at h
        obtain ⟨rows', asg'⟩ := pr
        dsimp only at h ⊢
        exact ih rows' asg' res h
    · rw [if_neg hc] at h
      rw [dif_neg hc]
      injection h with h

/-- Enough fuel: one pass per unit of the positive-counter sum, plus one. -/
theorem loopFuel_total (n : Nat) (prefs : List (List String)) :
    ∀ (fuel : Nat) (rows : List (SubIn × Int)) (asg : List (List String)),
      posSum rows < fuel → (loopFuel n prefs fuel rows asg).isSome := by
  intro fuel
  induction fuel with
  | zero => intro rows asg h; omega
  | succ f ih =>
    intro rows asg h
    simp only [loopFuel]
    by_cases hc : 0 < remSum rows
    · rw [if_pos hc]
      cases hpass : passGo n prefs rows asg with
      | error e => simp
      | ok pr =>
        obtain ⟨rows', asg'⟩ := pr
        apply ih
        have h1 := passGo_ok_rows n prefs rows asg rows' asg' hpass
        rw [h1]
        have := posSum_map_step_lt rows hc
        omega
    · rw [if_neg hc]
      simp

/-- The descending sort key: `sort_values(Col.rem_nreviews, ascending=False)`. -/
def remGE (a b : SubIn) : Prop := remNReviews b ≤ remNReviews a

instance : DecidableRel remGE := fun a b => by
  unfold remGE
  infer_instance

instance : IsTotal SubIn remGE :=
  ⟨fun a b => le_total (remNReviews b) (remNReviews a)⟩

instance : IsTrans SubIn remGE :=
  ⟨fun _ _ _ h1 h2 => le_trans h2 h1⟩

/-- The engine's working rows: submissions sorted by `rem_nreviews` descending,
each paired with its `Remaining Assignments` counter
`rem.where(rem == 0, rem + buffer - n_assigned)`. -/
def engineRows (subs : List SubIn) (reviewers : List Reviewer) (buffer : Int) :
    List (SubIn × Int) :=
  (List.insertionSort remGE subs).map
    (fun s => (s, if remNReviews s = 0 then 0
      else remNReviews s + buffer - countAssigned (reviewers.map (fun r => r.review)) s.code))

/-- `assign_proposals(subs_df, reviewers_df, buffer)`.  The result, on success,
is the final current-assignments list of each reviewer, in row order. -/
def assignProposals (subs : List SubIn) (reviewers : List Reviewer) (buffer : Int) :
    Except EngErr (List (List String)) :=
  let asg0 := reviewers.map (fun r => r.review)
  let revT := (reviewers.map (fun r => r.prefs)).flatten
  let subT := subs.map (fun s => s.track)
  if setEqStr revT subT then
    loopGo reviewers.length (reviewers.map (fun r => r.prefs))
      (engineRows subs reviewers buffer) asg0
  else
    Except.error (EngErr.trackMismatch (diffStr revT subT) (diffStr subT revT))

/-- The caller cell: apply the track aliases to the submissions, run the engine
on the reviewers without the wants-all mark, then append one row per wants-all
reviewer carrying the full list of submission codes. -/
def fullPipeline (al : List (String × String)) (subs : List SubIn)
    (reviewers : List Reviewer) (buffer : Int) :
    Except EngErr (List (String × List String)) :=
  let subsA := subs.map (fun s => { s with track := applyAlias al s.track })
  let nonAll := reviewers.filter (fun r => !r.wantsAll)
  let allEmails := (reviewers.filter (fun r => r.wantsAll)).map (fun r => r.email)
  let allCodes := subs.map (fun s => s.code)
  match assignProposals subsA nonAll buffer with
  | Except.error e => Except.error e
  | Except.ok asg =>
    Except.ok ((nonAll.map (fun r => r.email)).zip asg
      ++ allEmails.map (fun e => (e, allCodes)))

theorem passGo_error_noReviewer (n : Nat) (prefs : List (List String)) :
    ∀ (rows : List (SubIn × Int)) (asg : List (List String)) (e : EngErr),
      passGo n prefs rows asg = Except.error e → ∃ s, e = EngErr.noReviewer s := by
  intro rows
  induction rows with
  | nil => intro asg e h; cases h
  | cons p rest ih =>
    intro asg e h
    obtain ⟨s, r⟩ := p
    simp only [passGo] at h
    by_cases hr : 0 < r
    · rw [if_pos hr] at h
      cases hf : findReviewer n prefs asg s.track s.code with
      | none =>
        rw [hf] at h
        dsimp only at h
        injection h with h
        exact ⟨s.code, h.symm⟩
      | some iw =>
        obtain ⟨i, w⟩ := iw
        rw [hf] at h
        dsimp only at h
        cases hrec : passGo n prefs rest (appendAt asg i s.code) with
        | error e2 =>
          rw [hrec] at h
          dsimp only at h
          injection h with h
          subst h
          exact ih _ _ hrec
        | ok pr =>
          rw [hrec] at h
          obtain ⟨rest', asg'⟩ := pr
          cases h
    · rw [if_neg hr] at h
      cases hrec : passGo n prefs rest asg with
      | error e2 =>
        rw [hrec] at h
        dsimp only at h
        injection h with h
        subst h
        exact ih _ _ hrec
      | ok pr =>
        rw [hrec] at h
        obtain ⟨rest', asg'⟩ := pr
        cases h

theorem loopFuel_error_noReviewer (n : Nat) (prefs : List (List String)) :
    ∀ (fuel : Nat) (rows : List (SubIn × Int)) (asg : List (List String)) (e : EngErr),
      loopFuel n prefs fuel rows asg = some (Except.error e) →
        ∃ s, e = EngErr.noReviewer s := by
  intro fuel
  induction fuel with
  | zero => intro rows asg e h; cases h
  | succ f ih =>
    intro rows asg e h
    simp only [loopFuel] at h
    by_cases hc : 0 < remSum rows
    · rw [if_pos hc] at h
      cases hpass : passGo n prefs rows asg with
      | error e2 =>
        rw [hpass] at h
        dsimp only at h
        injection h with h
        injection h with h
        subst h
        exact passGo_error_noReviewer n prefs rows asg e2 hpass
      | ok pr =>
        rw [hpass] at h
        obtain ⟨rows', asg'⟩ := pr
        exact ih rows' asg' e h
    · rw [if_neg hc] at h
      injection h with h
      cases h

theorem loopGo_error_noReviewer (n : Nat) (prefs : List (List String))
    (rows : List (SubIn × Int)) (asg : List (List String)) (e : EngErr)
    (h : loopGo n prefs rows asg = Except.error e) : ∃ s, e = EngErr.noReviewer s := by
  have hs := loopFuel_total n prefs (posSum rows + 1) rows asg (by omega)
  obtain ⟨res, hres⟩ := Option.isSome_iff_exists.mp hs
  have := loopFuel_agrees n prefs (posSum rows + 1) rows asg res hres
  rw [this] at h
  subst h
  exact loopFuel_error_noReviewer n prefs (posSum rows + 1) rows asg e hres

theorem setEqStr_iff (xs ys : List String) :
    setEqStr xs ys = true ↔ (∀ x, x ∈ xs ↔ x ∈ ys) := by
  simp only [setEqStr, Bool.and_eq_true, List.all_eq_true, List.elem_iff]
  constructor
  · intro ⟨h1, h2⟩ x
    exact ⟨fun hx => h1 x hx, fun hx => h2 x hx⟩
  · intro h
    exact ⟨fun x hx => (h x).mp hx, fun x hx => (h x).mpr hx⟩

theorem mem_diffStr (xs ys : List String) (x : String) :
    x ∈ diffStr xs ys ↔ (x ∈ xs ∧ x ∉ ys) := by
  simp [diffStr, List.mem_filter, List.mem_dedup, List.elem_iff]

/-- **C5.**  The engine fails with the track-mismatch error exactly when the set
of distinct submission tracks differs from the set of tracks in the reviewers'
preference lists; the error carries both difference sets (tracks only in
reviewer preferences, tracks only in submissions), and no assignment output is
produced in that case.  (The sanity check runs after the caller applied the
aliasing table, i.e. on the tracks the engine receives.) -/
theorem trackMismatch_iff (subs : List SubIn) (reviewers : List Reviewer) (buffer : Int) :
    ((∃ A B, assignProposals subs reviewers buffer = Except.error (EngErr.trackMismatch A B)) ↔
      ¬ (∀ x, x ∈ (reviewers.map (fun r => r.prefs)).flatten ↔
          x ∈ subs.map (fun s => s.track))) ∧
    (∀ A B, assignProposals subs reviewers buffer = Except.error (EngErr.trackMismatch A B) →
      (∀ x, x ∈ A ↔ (x ∈ (reviewers.map (fun r => r.prefs)).flatten ∧
          x ∉ subs.map (fun s => s.track))) ∧
      (∀ x, x ∈ B ↔ (x ∈ subs.map (fun s => s.track) ∧
          x ∉ (reviewers.map (fun r => r.prefs)).flatten)) ∧
      ¬ ∃ out, assignProposals subs reviewers buffer = Except.ok out) := by
  by_cases hset : setEqStr ((reviewers.map (fun r => r.prefs)).flatten)
      (subs.map (fun s => s.track)) = true
  · have hrun : assignProposals subs reviewers buffer
        = loopGo reviewers.length (reviewers.map (fun r => r.prefs))
            (engineRows subs reviewers buffer) (reviewers.map (fun r => r.review)) := by
      rw [assignProposals, if_pos hset]
    constructor
    · constructor
      · intro ⟨A, B, hAB⟩
        rw [hrun] at hAB
        obtain ⟨s, hs⟩ := loopGo_error_noReviewer _ _ _ _ _ hAB
        cases hs
      · intro hne
        exact absurd ((setEqStr_iff _ _).mp hset) hne
    · intro A B hAB
      rw [hrun] at hAB
      obtain ⟨s, hs⟩ := loopGo_error_noReviewer _ _ _ _ _ hAB
      cases hs
  · have hrun : assignProposals subs reviewers buffer
        = Except.error (EngErr.trackMismatch
            (diffStr ((reviewers.map (fun r => r.prefs)).flatten) (subs.map (fun s => s.track)))
            (diffStr (subs.map (fun s => s.track)) ((reviewers.map (fun r => r.prefs)).flatten))) := by
      rw [assignProposals, if_neg hset]
    constructor
    · constructor
      · intro _
        intro hall
        exact hset ((setEqStr_iff _ _).mpr hall)
      · intro _
        exact ⟨_, _, hrun⟩
    · intro A B hAB
      rw [hrun] at hAB
      injection hAB with hAB
      injection hAB with h1 h2
      subst h1
      subst h2
      refine ⟨fun x => mem_diffStr _ _ x, fun x => mem_diffStr _ _ x, ?_⟩
      intro ⟨out, hout⟩
      rw [hrun] at hout
      cases hout

/-- **C5, witness input.**  One submission with track `"T"`, one reviewer whose
preference list holds only `"U"`: the sets differ, so the engine fails with
the mismatch error, whose payloads are characterized by the theorem. -/
theorem trackMismatch_iff_witness :
    (∃ A B, assignProposals [⟨"A", "T", 3, 0⟩] [⟨"r1", ["U"], [], false⟩] 2
      = Except.error (EngErr.trackMismatch A B)) :=
  (trackMismatch_iff [⟨"A", "T", 3, 0⟩] [⟨"r1", ["U"], [], false⟩] 2).1.mpr (by
    intro hall
    have hT : ("T" : String) ∈ List.map (fun s : SubIn => s.track) [⟨"A", "T", 3, 0⟩] := by
      decide
    have h2 := (hall "T").mpr hT
    revert h2
    decide)

/-- The number of reviewers whose current assignments (at initialization, their
already-reviewed codes) contain the given proposal. -/
def specCount (reviewers : List Reviewer) (code : String) : Int :=
  ((reviewers.filter (fun r => r.review.contains code)).length : Int)

theorem filter_beq_length_of_nodup (code : String) (l : List String) (h : l.Nodup) :
    ((l.filter (fun c => c == code)).length : Int) = if code ∈ l then 1 else 0 := by
  induction l with
  | nil => simp
  | cons a as ih =>
    obtain ⟨hna, hnd⟩ := List.nodup_cons.mp h
    by_cases ha : a = code
    · subst ha
      have hfil : as.filter (fun c => c == a) = [] := by
        apply List.filter_eq_nil_iff.mpr
        intro x hx
        simp only [beq_iff_eq]
        intro hxa
        exact hna (hxa ▸ hx)
      simp [List.filter_cons, hfil]
    · have hb : (a == code) = false := beq_false_of_ne ha
      simp only [List.filter_cons, hb, Bool.false_eq_true, if_false, ih hnd,
        List.mem_cons]
      have : (code = a) ↔ False := ⟨fun hc => ha hc.symm, False.elim⟩
      simp [this]

theorem countAssigned_eq_specCount (reviewers : List Reviewer) (code : String)
    (hnd : ∀ rv ∈ reviewers, rv.review.Nodup) :
    countAssigned (reviewers.map (fun r => r.review)) code = specCount reviewers code := by
  induction reviewers with
  | nil => rfl
  | cons r rest ih =>
    have hr : r.review.Nodup := hnd r (List.mem_cons_self r rest)
    have hrest : ∀ rv ∈ rest, rv.review.Nodup := fun rv hv => hnd rv (List.mem_cons_of_mem r hv)
    simp only [countAssigned, specCount, List.map_cons, List.sum_cons, List.filter_cons] at *
    by_cases hmem : code ∈ r.review
    · have hc : r.review.contains code = true := List.elem_iff.mpr hmem
      rw [hc]
      have h1 := filter_beq_length_of_nodup code r.review hr
      rw [if_pos hmem] at h1
      rw [h1, ih hrest]
      simp only [if_true, reduceIte, List.length_cons]
      push_cast
      ring
    · have hc : r.review.contains code = false := by
        cases he : r.review.contains code with
        | true => exact absurd (List.elem_iff.mp he) hmem
        | false => rfl
      rw [hc]
      have h1 := filter_beq_length_of_nodup code r.review hr
      rw [if_neg hmem] at h1
      rw [h1, ih hrest]
      simp

/-- The claim's description of the remaining-assignments counter together with
its assertion that the rows are processed in descending order of that counter. -/
def claimRemaining (subs : List SubIn) (reviewers : List Reviewer) (buffer : Int) : Prop :=
  (∀ p ∈ engineRows subs reviewers buffer,
    (remNReviews p.1 = 0 → p.2 = 0) ∧
    (remNReviews p.1 ≠ 0 →
      p.2 = remNReviews p.1 + buffer - specCount reviewers p.1.code)) ∧
  (engineRows subs reviewers buffer).Pairwise (fun p q => q.2 ≤ p.2)

instance (subs : List SubIn) (reviewers : List Reviewer) (buffer : Int) :
    Decidable (claimRemaining subs reviewers buffer) := by
  unfold claimRemaining
  infer_instance

/-- **C3, counterexample.**  Two submissions with remaining reviews 3 and 2,
four reviewers all already holding the first one, buffer 2: the counters are
`3+2-4 = 1` and `2+2-0 = 4`, yet the engine processes the rows sorted by the
*pre-buffer* count `max(0, target-completed)` descending, i.e. the row with
counter 1 first — not sorted by the final counter. -/
theorem remaining_counter_counterexample :
    ¬ claimRemaining [⟨"P", "T", 3, 0⟩, ⟨"Q", "T", 2, 0⟩]
        [⟨"r1", ["T"], ["P"], false⟩, ⟨"r2", ["T"], ["P"], false⟩,
         ⟨"r3", ["T"], ["P"], false⟩, ⟨"r4", ["T"], ["P"], false⟩] 2 := by
  decide

/-- **C3 (amended).**  The remaining-assignments counter is 0 whenever
`max(0, target - completed) = 0` and otherwise equals
`max(0, target - completed) + buffer` minus the number of reviewers whose
current assignments already contain the proposal (for duplicate-free review
lists); the rows are processed sorted descending by `max(0, target-completed)`
— the pre-buffer remaining review count — not by the final counter. -/
theorem remaining_counter_amended (subs : List SubIn) (reviewers : List Reviewer)
    (buffer : Int) (hnd : ∀ rv ∈ reviewers, rv.review.Nodup) :
    (∀ p ∈ engineRows subs reviewers buffer,
      (remNReviews p.1 = 0 → p.2 = 0) ∧
      (remNReviews p.1 ≠ 0 →
        p.2 = remNReviews p.1 + buffer - specCount reviewers p.1.code)) ∧
    (engineRows subs reviewers buffer).Pairwise
      (fun p q => remNReviews q.1 ≤ remNReviews p.1) := by
  constructor
  · intro p hp
    rw [engineRows] at hp
    obtain ⟨s, _, rfl⟩ := List.mem_map.mp hp
    constructor
    · intro h0
      dsimp only at h0 ⊢
      rw [if_pos h0]
    · intro hne
      dsimp only at hne ⊢
      rw [if_neg hne, countAssigned_eq_specCount reviewers s.code hnd]
  · rw [engineRows]
    apply List.Pairwise.map
    · intro a b hab
      exact hab
    · exact List.sorted_insertionSort remGE subs

/-- **C3, witness input.**  The amended counter formula and processing order
evaluated at the counterexample's input (whose review lists are duplicate-free). -/
theorem remaining_counter_amended_witness :
    (∀ rv ∈ [⟨"r1", ["T"], ["P"], false⟩, ⟨"r2", ["T"], ["P"], false⟩,
         ⟨"r3", ["T"], ["P"], false⟩, ⟨"r4", ["T"], ["P"], false⟩ ] , (Reviewer.review rv).Nodup) ∧
      ((∀ p ∈ engineRows [⟨"P", "T", 3, 0⟩, ⟨"Q", "T", 2, 0⟩]
          [⟨"r1", ["T"], ["P"], false⟩, ⟨"r2", ["T"], ["P"], false⟩,
           ⟨"r3", ["T"], ["P"], false⟩, ⟨"r4", ["T"], ["P"], false⟩] 2,
        (remNReviews p.1 = 0 → p.2 = 0) ∧
        (remNReviews p.1 ≠ 0 →
          p.2 = remNReviews p.1 + 2 - specCount
            [⟨"r1", ["T"], ["P"], false⟩, ⟨"r2", ["T"], ["P"], false⟩,
             ⟨"r3", ["T"], ["P"], false⟩, ⟨"r4", ["T"], ["P"], false⟩] p.1.code)) ∧
      (engineRows [⟨"P", "T", 3, 0⟩, ⟨"Q", "T", 2, 0⟩]
          [⟨"r1", ["T"], ["P"], false⟩, ⟨"r2", ["T"], ["P"], false⟩,
           ⟨"r3", ["T"], ["P"], false⟩, ⟨"r4", ["T"], ["P"], false⟩] 2).Pairwise
        (fun p q => remNReviews q.1 ≤ remNReviews p.1)) :=
  ⟨by decide, remaining_counter_amended _ _ 2 (by decide)⟩

theorem argminLoad_eq_none (asg : List (List String)) :
    ∀ l : List Nat, argminLoad asg l = none ↔ l = [] := by
  intro l
  cases l with
  | nil => simp [argminLoad]
  | cons i is =>
    simp only [argminLoad]
    cases argminLoad asg is with
    | none => simp
    | some j =>
      by_cases h : loads asg j < loads asg i <;> simp [h]

theorem argminLoad_mem (asg : List (List String)) :
    ∀ (l : List Nat) (j : Nat), argminLoad asg l = some j → j ∈ l := by
  intro l
  induction l with
  | nil => intro j h; cases h
  | cons i is ih =>
    intro j h
    simp only [argminLoad] at h
    cases hr : argminLoad asg is with
    | none =>
      rw [hr] at h
      injection h with h
      simp [← h]
    | some k =>
      rw [hr] at h
      dsimp only at h
      by_cases hlt : loads asg k < loads asg i
      · rw [if_pos hlt] at h
        injection h with h
        rw [h] at hr
        exact List.mem_cons_of_mem i (ih j hr)
      · rw [if_neg hlt] at h
        injection h with h
        simp [← h]

theorem argminLoad_le (asg : List (List String)) :
    ∀ (l : List Nat) (j : Nat), argminLoad asg l = some j →
      ∀ k ∈ l, loads asg j ≤ loads asg k := by
  intro l
  induction l with
  | nil => intro j h; cases h
  | cons i is ih =>
    intro j h k hk
    simp only [argminLoad] at h
    cases hr : argminLoad asg is with
    | none =>
      rw [hr] at h
      injection h with h
      subst h
      have his : is = [] := (argminLoad_eq_none asg is).mp hr
      subst his
      rcases List.mem_cons.mp hk with rfl | hk2
      · exact le_refl _
      · cases hk2
    | some m =>
      rw [hr] at h
      dsimp only at h
      by_cases hlt : loads asg m < loads asg i
      · rw [if_pos hlt] at h
        injection h with h
        rw [h] at hr hlt
        rcases List.mem_cons.mp hk with rfl | hk2
        · exact le_of_lt hlt
        · exact ih j hr k hk2
      · rw [if_neg hlt] at h
        injection h with h
        rw [← h]
        rcases List.mem_cons.mp hk with rfl | hk2
        · exact le_refl _
        · exact le_trans (not_lt.mp hlt) (ih m hr k hk2)

/-- On a strictly increasing position list (pandas row order), `idxmin` returns
the *first* position attaining the minimum: every earlier position has a
strictly larger load. -/
theorem argminLoad_first (asg : List (List String)) :
    ∀ (l : List Nat), l.Pairwise (· < ·) → ∀ j, argminLoad asg l = some j →
      ∀ k ∈ l, k < j → loads asg j < loads asg k := by
  intro l
  induction l with
  | nil => intro _ j h; cases h
  | cons i is ih =>
    intro hsort j h k hk hkj
    obtain ⟨hi, his⟩ := List.pairwise_cons.mp hsort
    simp only [argminLoad] at h
    cases hr : argminLoad asg is with
    | none =>
      have hnil : is = [] := (argminLoad_eq_none asg is).mp hr
      subst hnil
      rw [hr] at h
      injection h with h
      subst h
      rcases List.mem_cons.mp hk with rfl | hk2
      · omega
      · cases hk2
    | some m =>
      rw [hr] at h
      dsimp only at h
      by_cases hlt : loads asg m < loads asg i
      · rw [if_pos hlt] at h
        injection h with h
        rw [h] at hr hlt
        rcases List.mem_cons.mp hk with rfl | hk2
        · exact hlt
        · exact ih his j hr k hk2 hkj
      · rw [if_neg hlt] at h
        injection h with h
        rw [← h] at hkj ⊢
        rcases List.mem_cons.mp hk with rfl | hk2
        · omega
        · exact absurd hkj (not_lt.mpr (le_of_lt (hi k hk2)))

theorem range_filter_pairwise (n : Nat) (p : Nat → Bool) :
    ((List.range n).filter p).Pairwise (· < ·) :=
  List.Pairwise.filter p (List.pairwise_lt_range n)

/-- **C4.**  In each iteration with a positive counter, `find_reviewer` picks:
among the reviewers holding the proposal's track in their preference list and
not already assigned the proposal, the one with the fewest current assignments,
ties broken by the first such reviewer in row order; when no such
preference-matching reviewer exists, the least-loaded reviewer not already
assigned the proposal (same tie-break), with the warning flag set.  When every
reviewer already holds the proposal the `idxmin` call fails (`none`). -/
theorem findReviewer_spec (n : Nat) (prefs asg : List (List String)) (track sub : String) :
    (candIdx n prefs asg track sub ≠ [] →
      ∃ j, findReviewer n prefs asg track sub = some (j, false) ∧
        j ∈ candIdx n prefs asg track sub ∧
        (∀ k ∈ candIdx n prefs asg track sub, loads asg j ≤ loads asg k) ∧
        (∀ k ∈ candIdx n prefs asg track sub, k < j → loads asg j < loads asg k)) ∧
    (candIdx n prefs asg track sub = [] → fallIdx n asg sub ≠ [] →
      ∃ j, findReviewer n prefs asg track sub = some (j, true) ∧
        j ∈ fallIdx n asg sub ∧
        (∀ k ∈ fallIdx n asg sub, loads asg j ≤ loads asg k) ∧
        (∀ k ∈ fallIdx n asg sub, k < j → loads asg j < loads asg k)) ∧
    (fallIdx n asg sub = [] → findReviewer n prefs asg track sub = none) := by
  refine ⟨?_, ?_, ?_⟩
  · intro hne
    cases hc : argminLoad asg (candIdx n prefs asg track sub) with
    | none => exact absurd ((argminLoad_eq_none asg _).mp hc) hne
    | some j =>
      refine ⟨j, ?_, argminLoad_mem asg _ j hc, argminLoad_le asg _ j hc,
        argminLoad_first asg _ (range_filter_pairwise n _) j hc⟩
      rw [findReviewer, hc]
  · intro hcand hfne
    cases hf : argminLoad asg (fallIdx n asg sub) with
    | none => exact absurd ((argminLoad_eq_none asg _).mp hf) hfne
    | some j =>
      refine ⟨j, ?_, argminLoad_mem asg _ j hf, argminLoad_le asg _ j hf,
        argminLoad_first asg _ (range_filter_pairwise n _) j hf⟩
      rw [findReviewer, hcand]
      simp only [argminLoad, hf]
  · intro hfall
    have hcand : candIdx n prefs asg track sub = [] := by
      have hsub : ∀ i ∈ candIdx n prefs asg track sub, i ∈ fallIdx n asg sub := by
        intro i hi
        simp only [candIdx, List.mem_filter, Bool.and_eq_true] at hi
        exact List.mem_filter.mpr ⟨hi.1, hi.2.2⟩
      cases hcc : candIdx n prefs asg track sub with
      | nil => rfl
      | cons a l =>
        have := hsub a (by rw [hcc]; exact List.mem_cons_self a l)
        rw [hfall] at this
        cases this
    rw [findReviewer, hcand, hfall]
    rfl

/-- **C4, witness input.**  Three reviewers: `r0` already assigned the
proposal, `r1` preference-matching with 1 assignment, `r2` preference-matching
with 0 assignments; the engine picks `r2` (fewest current assignments among
not-yet-assigned preference matches). -/
theorem findReviewer_spec_witness :
    (candIdx 3 [["T"], ["T"], ["T"]] [["A"], ["B"], []] "T" "A" ≠ [] ∧
      findReviewer 3 [["T"], ["T"], ["T"]] [["A"], ["B"], []] "T" "A" = some (2, false)) ∧
    (∃ j, findReviewer 3 [["T"], ["T"], ["T"]] [["A"], ["B"], []] "T" "A" = some (j, false) ∧
      j ∈ candIdx 3 [["T"], ["T"], ["T"]] [["A"], ["B"], []] "T" "A" ∧
      (∀ k ∈ candIdx 3 [["T"], ["T"], ["T"]] [["A"], ["B"], []] "T" "A",
        loads [["A"], ["B"], []] j ≤ loads [["A"], ["B"], []] k) ∧
      (∀ k ∈ candIdx 3 [["T"], ["T"], ["T"]] [["A"], ["B"], []] "T" "A",
        k < j → loads [["A"], ["B"], []] j < loads [["A"], ["B"], []] k)) :=
  ⟨⟨by decide, by decide⟩,
    (findReviewer_spec 3 [["T"], ["T"], ["T"]] [["A"], ["B"], []] "T" "A").1 (by decide)⟩

/-- **C10.**  The assignment `while` loop terminates on every input: a
successful pass decrements the counter of every row that was positive by
exactly one and leaves the others unchanged (else an error propagates), so
while the counters sum to a positive value the sum of positive counters
strictly decreases — and running the loop with `posSum + 1` units of fuel (one
per pass) reaches the loop's result. -/
theorem engine_loop_terminates (n : Nat) (prefs : List (List String)) :
    (∀ (rows : List (SubIn × Int)) (asg : List (List String)) rows' asg',
      passGo n prefs rows asg = Except.ok (rows', asg') → rows' = rows.map stepRow) ∧
    (∀ rows : List (SubIn × Int), 0 < remSum rows →
      posSum (rows.map stepRow) < posSum rows) ∧
    (∀ (rows : List (SubIn × Int)) (asg : List (List String)),
      ∃ res, loopFuel n prefs (posSum rows + 1) rows asg = some res ∧
        loopGo n prefs rows asg = res) := by
  refine ⟨passGo_ok_rows n prefs, fun rows h => posSum_map_step_lt rows h, ?_⟩
  intro rows asg
  have hs := loopFuel_total n prefs (posSum rows + 1) rows asg (by omega)
  obtain ⟨res, hres⟩ := Option.isSome_iff_exists.mp hs
  exact ⟨res, hres, loopFuel_agrees n prefs (posSum rows + 1) rows asg res hres⟩

/-- **C10, witness input.**  The loop bound evaluated at a one-row instance
with a positive counter. -/
theorem engine_loop_terminates_witness :
    (0 < remSum [(⟨"A", "T", 1, 0⟩, 1)] ∧
      posSum ([(⟨"A", "T", 1, 0⟩, 1)].map stepRow) < posSum [(⟨"A", "T", 1, 0⟩, 1)]) ∧
    (∃ res, loopFuel 1 [["T"]] (posSum [(⟨"A", "T", 1, 0⟩, 1)] + 1)
        [(⟨"A", "T", 1, 0⟩, 1)] [[]] = some res ∧
      loopGo 1 [["T"]] [(⟨"A", "T", 1, 0⟩, 1)] [[]] = res) :=
  ⟨⟨by decide, (engine_loop_terminates 1 [["T"]]).2.1 _ (by decide)⟩,
    (engine_loop_terminates 1 [["T"]]).2.2 _ _⟩

theorem getD_set_self (l : List (List String)) (i : Nat) (v : List String)
    (h : i < l.length) : (l.set i v).getD i [] = v := by
  rw [List.getD_eq_getElem _ _ (by rw [List.length_set]; omega)]
  exact List.getElem_set_eq (by rw [List.length_set]; omega)

theorem getD_set_ne (l : List (List String)) (i j : Nat) (v : List String)
    (h : j ≠ i) : (l.set i v).getD j [] = l.getD j [] := by
  by_cases hj : j < l.length
  · rw [List.getD_eq_getElem _ _ (by rw [List.length_set]; omega),
      List.getD_eq_getElem _ _ hj]
    exact List.getElem_set_ne (fun he => h he.symm) _
  · rw [List.getD_eq_default _ _ (by rw [List.length_set]; omega),
      List.getD_eq_default _ _ (by omega)]

/-- `asg'` extends `asg` reviewer-wise: same row count, and every current
assignment list grew only by appending. -/
def Extends (asg0 asg : List (List String)) : Prop :=
  asg.length = asg0.length ∧ ∀ i, ∃ new, asg.getD i [] = asg0.getD i [] ++ new

theorem extends_refl (asg : List (List String)) : Extends asg asg :=
  ⟨rfl, fun i => ⟨[], by simp⟩⟩

theorem Extends.trans {a b c : List (List String)} (h1 : Extends a b)
    (h2 : Extends b c) : Extends a c := by
  refine ⟨h2.1.trans h1.1, fun i => ?_⟩
  obtain ⟨n1, hn1⟩ := h1.2 i
  obtain ⟨n2, hn2⟩ := h2.2 i
  exact ⟨n1 ++ n2, by rw [hn2, hn1, List.append_assoc]⟩

/-- All current assignment lists are duplicate-free. -/
def NodupAll (asg : List (List String)) : Prop := ∀ i, (asg.getD i []).Nodup

theorem appendAt_extends (asg : List (List String)) (i : Nat) (c : String) :
    Extends asg (appendAt asg i c) := by
  refine ⟨by rw [appendAt, List.length_set], fun j => ?_⟩
  by_cases hj : j = i
  · subst hj
    by_cases hlen : j < asg.length
    · exact ⟨[c], getD_set_self asg j _ hlen⟩
    · refine ⟨[], ?_⟩
      rw [appendAt, List.set_eq_of_length_le (by omega)]
      simp
  · exact ⟨[], by rw [appendAt, getD_set_ne asg i j _ hj]; simp⟩

theorem appendAt_nodupAll (asg : List (List String)) (i : Nat) (c : String)
    (h : NodupAll asg) (hc : c ∉ asg.getD i []) : NodupAll (appendAt asg i c) := by
  intro j
  by_cases hj : j = i
  · subst hj
    by_cases hlen : j < asg.length
    · rw [appendAt, getD_set_self asg j _ hlen]
      rw [← List.concat_eq_append]
      exact List.Nodup.concat hc (h j)
    · rw [appendAt, List.set_eq_of_length_le (by omega)]
      exact h j
  · rw [appendAt, getD_set_ne asg i j _ hj]
    exact h j

/-- `find_reviewer` never returns a reviewer already assigned the proposal. -/
theorem findReviewer_not_assigned (n : Nat) (prefs asg : List (List String))
    (track sub : String) (j : Nat) (w : Bool)
    (h : findReviewer n prefs asg track sub = some (j, w)) :
    sub ∉ asg.getD j [] := by
  rw [findReviewer] at h
  cases hc : argminLoad asg (candIdx n prefs asg track sub) with
  | some m =>
    rw [hc] at h
    injection h with h
    injection h with h1 h2
    subst h1
    have hm := argminLoad_mem asg _ m hc
    simp only [candIdx, List.mem_filter, Bool.and_eq_true, Bool.not_eq_true'] at hm
    intro hmem
    have hcon : (asg.getD m []).contains sub = true := List.elem_iff.mpr hmem
    exact Bool.false_ne_true ((hm.2.2).symm.trans hcon)
  | none =>
    rw [hc] at h
    dsimp only at h
    cases hf : argminLoad asg (fallIdx n asg sub) with
    | none => rw [hf] at h; cases h
    | some m =>
      rw [hf] at h
      dsimp only at h
      injection h with h
      injection h with h1 h2
      subst h1
      have hm := argminLoad_mem asg _ m hf
      simp only [fallIdx, List.mem_filter, Bool.not_eq_true'] at hm
      intro hmem
      have hcon : (asg.getD m []).contains sub = true := List.elem_iff.mpr hmem
      exact Bool.false_ne_true ((hm.2).symm.trans hcon)

theorem passGo_ok_asg (n : Nat) (prefs : List (List String)) :
    ∀ (rows : List (SubIn × Int)) (asg : List (List String)) rows' asg',
      passGo n prefs rows asg = Except.ok (rows', asg') →
        Extends asg asg' ∧ (NodupAll asg → NodupAll asg') := by
  intro rows
  induction rows with
  | nil =>
    intro asg rows' asg' h
    simp only [passGo] at h
    injection h with h
    injection h with h1 h2
    rw [← h2]
    exact ⟨extends_refl asg, fun hn => hn⟩
  | cons p rest ih =>
    intro asg rows' asg' h
    obtain ⟨s, r⟩ := p
    simp only [passGo] at h
    by_cases hr : 0 < r
    · rw [if_pos hr] at h
      cases hf : findReviewer n prefs asg s.track s.code with
      | none => rw [hf] at h; cases h
      | some iw =>
        obtain ⟨i, w⟩ := iw
        rw [hf] at h
        dsimp only at h
        cases hrec : passGo n prefs rest (appendAt asg i s.code) with
        | error e => rw [hrec] at h; cases h
        | ok pr =>
          rw [hrec] at h
          obtain ⟨rest2, asg2⟩ := pr
          injection h with h
          injection h with h1 h2
          rw [← h2]
          have hstep := appendAt_extends asg i s.code
          have hrec2 := ih _ _ _ hrec
          refine ⟨hstep.trans hrec2.1, fun hn => ?_⟩
          exact hrec2.2 (appendAt_nodupAll asg i s.code hn
            (findReviewer_not_assigned n prefs asg s.track s.code i w hf))
    · rw [if_neg hr] at h
      cases hrec : passGo n prefs rest asg with
      | error e => rw [hrec] at h; cases h
      | ok pr =>
        rw [hrec] at h
        obtain ⟨rest2, asg2⟩ := pr
        injection h with h
        injection h with h1 h2
        rw [← h2]
        exact ih _ _ _ hrec

theorem loopFuel_ok_asg (n : Nat) (prefs : List (List String)) :
    ∀ (fuel : Nat) (rows : List (SubIn × Int)) (asg : List (List String)) out,
      loopFuel n prefs fuel rows asg = some (Except.ok out) →
        Extends asg out ∧ (NodupAll asg → NodupAll out) := by
  intro fuel
  induction fuel with
  | zero => intro rows asg out h; cases h
  | succ f ih =>
    intro rows asg out h
    simp only [loopFuel] at h
    by_cases hc : 0 < remSum rows
    · rw [if_pos hc] at h
      cases hpass : passGo n prefs rows asg with
      | error e =>
        rw [hpass] at h
        dsimp only at h
        injection h with h
        cases h
      | ok pr =>
        rw [hpass] at h
        obtain ⟨rows', asg'⟩ := pr
        have h1 := passGo_ok_asg n prefs rows asg rows' asg' hpass
        have h2 := ih rows' asg' out h
        exact ⟨h1.1.trans h2.1, fun hn => h2.2 (h1.2 hn)⟩
    · rw [if_neg hc] at h
      injection h with h
      injection h with h
      rw [← h]
      exact ⟨extends_refl asg, fun hn => hn⟩

theorem loopGo_ok_asg (n : Nat) (prefs : List (List String))
    (rows : List (SubIn × Int)) (asg : List (List String)) (out : List (List String))
    (h : loopGo n prefs rows asg = Except.ok out) :
    Extends asg out ∧ (NodupAll asg → NodupAll out) := by
  have hs := loopFuel_total n prefs (posSum rows + 1) rows asg (by omega)
  obtain ⟨res, hres⟩ := Option.isSome_iff_exists.mp hs
  have hag := loopFuel_agrees n prefs (posSum rows + 1) rows asg res hres
  rw [hag] at h
  subst h
  exact loopFuel_ok_asg n prefs (posSum rows + 1) rows asg out hres

theorem nodupAll_map_review (l : List Reviewer) (h : ∀ rv ∈ l, rv.review.Nodup) :
    NodupAll (l.map (fun r => r.review)) := by
  intro i
  by_cases hi : i < l.length
  · rw [List.getD_eq_getElem _ _ (by rw [List.length_map]; omega)]
    rw [List.getElem_map]
    exact h _ (List.getElem_mem hi)
  · rw [List.getD_eq_default _ _ (by rw [List.length_map]; omega)]
    exact List.nodup_nil

theorem nodupAll_mem (asg : List (List String)) (h : NodupAll asg) :
    ∀ l ∈ asg, l.Nodup := by
  intro l hl
  obtain ⟨i, hi, rfl⟩ := List.mem_iff_getElem.mp hl
  have := h i
  rw [List.getD_eq_getElem _ _ hi] at this
  exact this

/-- **C1 (amended).**  On success, each output row is duplicate-free when the
input review lists and the submission codes are duplicate-free; each engine row
(one per reviewer without the wants-all mark, in row order) equals that
reviewer's already-reviewed list followed by the newly assigned codes, and no
newly assigned code repeats an already-reviewed one; the rows appended after
the main pass (one per wants-all reviewer) carry the full submission-code list,
which *does* include codes from those reviewers' already-reviewed lists. -/
theorem no_reassignment_amended (al : List (String × String)) (subs : List SubIn)
    (reviewers : List Reviewer) (buffer : Int)
    (hnd : ∀ rv ∈ reviewers, rv.review.Nodup)
    (hcodes : (subs.map (fun s => s.code)).Nodup) :
    ∀ out, fullPipeline al subs reviewers buffer = Except.ok out →
      (∀ p ∈ out, p.2.Nodup) ∧
      (∀ i, i < (reviewers.filter (fun r => !r.wantsAll)).length →
        ∃ new,
          (out.getD i ("", [])).2
            = ((reviewers.filter (fun r => !r.wantsAll)).getD i ⟨"", [], [], false⟩).review
              ++ new
          ∧ ∀ c ∈ new,
              c ∉ ((reviewers.filter (fun r => !r.wantsAll)).getD i ⟨"", [], [], false⟩).review) ∧
      (∀ p ∈ out.drop (reviewers.filter (fun r => !r.wantsAll)).length,
        p.2 = subs.map (fun s => s.code)) := by
  intro out hout
  rw [fullPipeline] at hout
  cases hassign : assignProposals
      (subs.map (fun s => { s with track := applyAlias al s.track }))
      (reviewers.filter (fun r => !r.wantsAll)) buffer with
  | error e =>
    rw [hassign] at hout
    cases hout
  | ok asg =>
    rw [hassign] at hout
    dsimp only at hout
    injection hout with hout
    rw [assignProposals] at hassign
    by_cases hset : setEqStr
        (((reviewers.filter (fun r => !r.wantsAll)).map (fun r => r.prefs)).flatten)
        ((subs.map (fun s => { s with track := applyAlias al s.track })).map
          (fun s => s.track)) = true
    · rw [if_pos hset] at hassign
      have hloop := loopGo_ok_asg _ _ _ _ _ hassign
      have hnd2 : ∀ rv ∈ reviewers.filter (fun r => !r.wantsAll), rv.review.Nodup :=
        fun rv hv => hnd rv (List.mem_of_mem_filter hv)
      have hnd0 : NodupAll ((reviewers.filter (fun r => !r.wantsAll)).map
          (fun r => r.review)) :=
        nodupAll_map_review _ hnd2
      have hndasg : NodupAll asg := hloop.2 hnd0
      have hext := hloop.1
      have hlen_asg : asg.length = (reviewers.filter (fun r => !r.wantsAll)).length := by
        rw [hext.1, List.length_map]
      have hlen_zip : (((reviewers.filter (fun r => !r.wantsAll)).map
          (fun r => r.email)).zip asg).length
          = (reviewers.filter (fun r => !r.wantsAll)).length := by
        rw [List.length_zip, List.length_map, hlen_asg, min_self]
      refine ⟨?_, ?_, ?_⟩
      · intro p hp
        rw [← hout] at hp
        rcases List.mem_append.mp hp with hp1 | hp2
        · have := (List.mem_zip hp1).2
          exact nodupAll_mem asg hndasg p.2 this
        · obtain ⟨e, _, rfl⟩ := List.mem_map.mp hp2
          exact hcodes
      · intro i hi
        obtain ⟨new, hnew⟩ := hext.2 i
        have hgz : (((((reviewers.filter (fun r => !r.wantsAll)).map
            (fun r => r.email)).zip asg)).getD i ("", [])).2 = asg.getD i [] := by
          rw [List.getD_eq_getElem _ _ (by rw [hlen_zip]; omega)]
          have hie : i < ((reviewers.filter (fun r => !r.wantsAll)).map
              (fun r => r.email)).length := by
            rw [List.length_map]
            omega
          have hia : i < asg.length := by omega
          have h1 : ((((reviewers.filter (fun r => !r.wantsAll)).map
              (fun r => r.email)).zip asg))[i]
              = ((((reviewers.filter (fun r => !r.wantsAll)).map
                (fun r => r.email)))[i], asg[i]) := List.getElem_zip
          rw [h1]
          rw [List.getD_eq_getElem _ _ (by omega)]
        have hout_i : (out.getD i ("", [])).2 = asg.getD i [] := by
          rw [← hout, List.getD_append _ _ _ _ (by rw [hlen_zip]; omega), hgz]
        have hbase : (((reviewers.filter (fun r => !r.wantsAll)).map
            (fun r => r.review)).getD i [])
            = ((reviewers.filter (fun r => !r.wantsAll)).getD i
              ⟨"", [], [], false⟩).review := by
          rw [List.getD_eq_getElem _ _ (by rw [List.length_map]; omega),
            List.getElem_map, List.getD_eq_getElem _ _ (by omega)]
        refine ⟨new, ?_, ?_⟩
        · rw [hout_i, hnew, hbase]
        · have hndi := hndasg i
          rw [hnew, hbase] at hndi
          have hdisj := (List.nodup_append.mp hndi).2.2
          intro c hc hcrev
          exact hdisj hcrev hc
      · intro p hp
        rw [← hout] at hp
        rw [← hlen_zip, List.drop_left] at hp
        obtain ⟨e, _, rfl⟩ := List.mem_map.mp hp
        rfl
    · rw [if_neg hset] at hassign
      cases hassign

/-- The claim's property: in the produced reviewer-to-proposals mapping
(wants-all rows included), no reviewer's row holds a proposal from that
reviewer's already-reviewed list, and no code repeats within a row. -/
def claimNoReassign (al : List (String × String)) (subs : List SubIn)
    (reviewers : List Reviewer) (buffer : Int) : Prop :=
  ∀ out, fullPipeline al subs reviewers buffer = Except.ok out →
    ∀ p ∈ out, ∀ rv ∈ reviewers, rv.email = p.1 →
      (∀ c ∈ p.2, c ∉ rv.review) ∧ p.2.Nodup

/-- **C1, counterexample.**  One submission `A` (already fully reviewed), one
ordinary reviewer and one wants-all reviewer who already reviewed `A`: the
wants-all row appended after the main pass holds *every* submission code, so it
contains `A` even though `A` is in that reviewer's already-reviewed list.  (The
ordinary rows likewise keep the already-reviewed codes as the prefix of the
output list by construction.) -/
theorem no_reassignment_counterexample :
    ¬ claimNoReassign [] [⟨"A", "T", 1, 1⟩]
      [⟨"r1", ["T"], [], false⟩, ⟨"r2", [], ["A"], true⟩] 6 := by
  intro hcl
  have hloop : loopGo 1 [["T"]]
      (engineRows [⟨"A", "T", 1, 1⟩] [⟨"r1", ["T"], [], false⟩] 6) [[]]
      = Except.ok [[]] :=
    loopFuel_agrees 1 [["T"]] 1 _ _ _ rfl
  have hassign : assignProposals [⟨"A", "T", 1, 1⟩] [⟨"r1", ["T"], [], false⟩] 6
      = Except.ok [[]] := by
    rw [assignProposals, if_pos (by decide)]
    exact hloop
  have hrun : fullPipeline [] [⟨"A", "T", 1, 1⟩]
      [⟨"r1", ["T"], [], false⟩, ⟨"r2", [], ["A"], true⟩] 6
      = Except.ok [("r1", []), ("r2", ["A"])] := by
    rw [fullPipeline]
    have hfil : ([⟨"r1", ["T"], [], false⟩, ⟨"r2", [], ["A"], true⟩] :
        List Reviewer).filter (fun r => !r.wantsAll) = [⟨"r1", ["T"], [], false⟩] := by
      decide
    have hmap : ([⟨"A", "T", 1, 1⟩] : List SubIn).map
        (fun s => { s with track := applyAlias [] s.track }) = [⟨"A", "T", 1, 1⟩] := by
      decide
    rw [hfil, hmap, hassign]
    rfl
  have h := hcl _ hrun ("r2", ["A"]) (by decide) ⟨"r2", [], ["A"], true⟩ (by decide) rfl
  exact (h.1 "A" (by decide)) (by decide)

/-- **C1, witness input.**  The amended row structure evaluated at the
counterexample's input (duplicate-free review lists and codes). -/
theorem no_reassignment_amended_witness :
    ((∀ rv ∈ ([⟨"r1", ["T"], [], false⟩, ⟨"r2", [], ["A"], true⟩] : List Reviewer),
        (Reviewer.review rv).Nodup) ∧
      (([⟨"A", "T", 1, 1⟩] : List SubIn).map (fun s => s.code)).Nodup) ∧
    (∀ out, fullPipeline [] [⟨"A", "T", 1, 1⟩]
        [⟨"r1", ["T"], [], false⟩, ⟨"r2", [], ["A"], true⟩] 6 = Except.ok out →
      (∀ p ∈ out, p.2.Nodup) ∧
      (∀ i, i < (([⟨"r1", ["T"], [], false⟩, ⟨"r2", [], ["A"], true⟩] :
          List Reviewer).filter (fun r => !r.wantsAll)).length →
        ∃ new,
          (out.getD i ("", [])).2
            = ((([⟨"r1", ["T"], [], false⟩, ⟨"r2", [], ["A"], true⟩] :
                List Reviewer).filter (fun r => !r.wantsAll)).getD i
                ⟨"", [], [], false⟩).review ++ new
          ∧ ∀ c ∈ new,
              c ∉ ((([⟨"r1", ["T"], [], false⟩, ⟨"r2", [], ["A"], true⟩] :
                List Reviewer).filter (fun r => !r.wantsAll)).getD i
                ⟨"", [], [], false⟩).review) ∧
      (∀ p ∈ out.drop (([⟨"r1", ["T"], [], false⟩, ⟨"r2", [], ["A"], true⟩] :
          List Reviewer).filter (fun r => !r.wantsAll)).length,
        p.2 = ([⟨"A", "T", 1, 1⟩] : List SubIn).map (fun s => s.code))) :=
  ⟨⟨by decide, by decide⟩,
    no_reassignment_amended [] [⟨"A", "T", 1, 1⟩]
      [⟨"r1", ["T"], [], false⟩, ⟨"r2", [], ["A"], true⟩] 6 (by decide) (by decide)⟩
